import Mathlib

/-
Verification development for the hierarchical bitmap allocator of the
`equation_defs` repository (`src/bitmap.rs`, `src/bitmap_allocator.rs`).

Shallow embedding conventions
=============================
* A Rust `u64` used as a 64-bit free/used word is embedded as a function
  `Fin 64 → Bool` (bit i = `true` means "free/available", exactly the
  convention of the source: "for each bit, 1 indicates available").
  The `bit_field` crate operations on the word translate as follows:
  - `get_bit(i)`        : read bit `i` (the crate asserts `i < 64`);
  - `set_bit(i, v)`     : pointwise update (the crate asserts `i < 64`);
  - `get_bits(a..b)`    : the bits in `[a, b)` as a number; only the
    comparison `get_bits(a..b) == 0` is used by the source, which is
    "no bit of `[a, b)` is set"; the crate asserts `a < 64 ∧ b ≤ 64 ∧ a < b`;
  - `set_bits(a..b, u64::MAX.get_bits(a..b))` : set all bits in `[a, b)`;
  - `set_bits(a..b, 0)` : clear all bits in `[a, b)`;
    `set_bits`/`get_bits` panic on empty ranges (`assert!(start < end)`),
    which is modelled by the explicit `ok` predicates further below.
* A Rust `u8` summary bitset (`BitAllocCascade8`) and a `bitmaps::Bitmap<SIZE>`
  summary bitset (`SegmentBitAllocCascade`) are embedded as `Fin N → Bool`
  with `N = 8` resp. `N = SIZE`.  `u8::trailing_zeros` (used under a
  non-emptiness guard) and `Bitmap::first_index` both yield the lowest set
  bit, `Bitmap::into_iter` yields the indices of the set bits in ascending
  order, and `Bitmap::is_empty` / `bitset == 0` both mean "no set bit".
* `&mut self` methods become state-passing functions `state → result × state`.
* Machine-integer arithmetic on indices (`usize`) never overflows on the
  inputs the theorems quantify over; it is embedded as `Nat` arithmetic.
  `x >> a` / `x << a` on indices are written `x / 2 ^ a` and `x * 2 ^ a`,
  and the power-of-two mask computations of `align_up_log2` /
  `is_aligned_log2` are written with division/modulus, which is exactly
  their value for power-of-two alignments.
* Rust panics (failed `assert!`, out-of-bounds index, `unwrap` of `None`,
  `usize` underflow) have no result state.  The Lean functions are
  totalised at those points (returning an unchanged state or a default);
  every theorem about a state after an operation carries hypotheses that
  exclude the panicking inputs, and where a claim is *about* normal
  completion (C10) an explicit `ok` predicate models the panic conditions.
-/

set_option maxHeartbeats 1000000
set_option maxRecDepth 16384

namespace EquationDefs

/-! ## A bounded linear scan, used to model bit scans and `next` -/

/-- Least `k'` in `[k, k + n)` with `f k' = true`, scanning upward.
This models both `u64::trailing_zeros` (under a bound) and
`(key..CAP).find(|i| get_bit(i))`. -/
def scanGo (f : Nat → Bool) : Nat → Nat → Option Nat
  | 0, _ => none
  | n + 1, k => if f k then some k else scanGo f n (k + 1)

/-- Scan `[lo, hi)` for the least index where `f` holds. -/
def scanFrom (f : Nat → Bool) (lo hi : Nat) : Option Nat :=
  scanGo f (hi - lo) lo

theorem scanGo_eq_some {f : Nat → Bool} :
    ∀ {n k j : Nat}, scanGo f n k = some j →
      k ≤ j ∧ j < k + n ∧ f j = true ∧ ∀ t, k ≤ t → t < j → f t = false := by
  intro n
  induction n with
  | zero => intro k j h; simp [scanGo] at h
  | succ n ih =>
    intro k j h
    by_cases hk : f k
    · simp [scanGo, hk] at h
      subst h
      exact ⟨le_refl _, by omega, hk, fun t ht1 ht2 => by omega⟩
    · simp [scanGo, hk] at h
      obtain ⟨h1, h2, h3, h4⟩ := ih h
      refine ⟨by omega, by omega, h3, fun t ht1 ht2 => ?_⟩
      rcases Nat.eq_or_lt_of_le ht1 with rfl | ht
      · simpa using hk
      · exact h4 t ht ht2

theorem scanGo_eq_none {f : Nat → Bool} :
    ∀ {n k : Nat}, scanGo f n k = none ↔ ∀ t, k ≤ t → t < k + n → f t = false := by
  intro n
  induction n with
  | zero => intro k; simp [scanGo]; intro t h1 h2; omega
  | succ n ih =>
    intro k
    by_cases hk : f k
    · constructor
      · intro h; simp [scanGo, hk] at h
      · intro h
        have := h k (le_refl _) (by omega)
        rw [hk] at this; exact absurd this (by simp)
    · simp only [scanGo, hk, Bool.false_eq_true, if_false, ite_false, ih]
      constructor
      · intro h t ht1 ht2
        rcases Nat.eq_or_lt_of_le ht1 with rfl | ht
        · simpa using hk
        · exact h t ht (by omega)
      · intro h t ht1 ht2; exact h t (by omega) (by omega)

theorem scanFrom_eq_some {f : Nat → Bool} {lo hi j : Nat} (h : scanFrom f lo hi = some j) :
    lo ≤ j ∧ j < hi ∧ f j = true ∧ ∀ t, lo ≤ t → t < j → f t = false := by
  obtain ⟨h1, h2, h3, h4⟩ := scanGo_eq_some h
  exact ⟨h1, by omega, h3, h4⟩

theorem scanFrom_eq_none {f : Nat → Bool} {lo hi : Nat} (hlh : lo ≤ hi) :
    scanFrom f lo hi = none ↔ ∀ t, lo ≤ t → t < hi → f t = false := by
  rw [scanFrom, scanGo_eq_none]
  constructor
  · intro h t h1 h2; exact h t h1 (by omega)
  · intro h t h1 h2; exact h t h1 (by omega)

theorem scanFrom_none_of_ge {f : Nat → Bool} {lo hi : Nat} (h : hi ≤ lo) :
    scanFrom f lo hi = none := by
  rw [scanFrom, Nat.sub_eq_zero_of_le h]; rfl

/-- Splitting a scan at an intermediate point. -/
theorem scanFrom_split (f : Nat → Bool) {lo mid hi : Nat} (h1 : lo ≤ mid) (h2 : mid ≤ hi) :
    scanFrom f lo hi =
      match scanFrom f lo mid with
      | some j => some j
      | none => scanFrom f mid hi := by
  cases hmid : scanFrom f lo mid with
  | some j =>
    show scanFrom f lo hi = some j
    obtain ⟨hj1, hj2, hj3, hj4⟩ := scanFrom_eq_some hmid
    cases hhi : scanFrom f lo hi with
    | some j' =>
      obtain ⟨hj'1, hj'2, hj'3, hj'4⟩ := scanFrom_eq_some hhi
      have hn1 : ¬ j < j' := fun hlt => by
        have := hj'4 j hj1 hlt; rw [hj3] at this; exact Bool.true_eq_false.mp this
      have hn2 : ¬ j' < j := fun hlt => by
        have := hj4 j' hj'1 hlt; rw [hj'3] at this; exact Bool.true_eq_false.mp this
      simp; omega
    | none =>
      rw [scanFrom_eq_none (by omega)] at hhi
      have := hhi j hj1 (by omega); rw [hj3] at this; exact absurd this (by simp)
  | none =>
    show scanFrom f lo hi = scanFrom f mid hi
    rw [scanFrom_eq_none h1] at hmid
    cases hhi : scanFrom f lo hi with
    | some j' =>
      obtain ⟨hj'1, hj'2, hj'3, hj'4⟩ := scanFrom_eq_some hhi
      have hge : mid ≤ j' := by
        by_contra hlt
        have := hmid j' hj'1 (by omega); rw [hj'3] at this; exact absurd this (by simp)
      cases hmh : scanFrom f mid hi with
      | some j'' =>
        obtain ⟨hj''1, hj''2, hj''3, hj''4⟩ := scanFrom_eq_some hmh
        have hn1 : ¬ j' < j'' := fun hlt => by
          have := hj''4 j' hge hlt; rw [hj'3] at this; exact Bool.true_eq_false.mp this
        have hn2 : ¬ j'' < j' := fun hlt => by
          have := hj'4 j'' (by omega) hlt; rw [hj''3] at this
          exact Bool.true_eq_false.mp this
        simp; omega
      | none =>
        rw [scanFrom_eq_none h2] at hmh
        have := hmh j' hge (by omega); rw [hj'3] at this; exact absurd this (by simp)
    | none =>
      symm
      rw [scanFrom_eq_none h2]
      rw [scanFrom_eq_none (by omega)] at hhi
      intro t ht1 ht2; exact hhi t (by omega) ht2

/-- A scan over shifted indices. -/
theorem scanFrom_split_some {f : Nat → Bool} {lo mid hi j : Nat} (h1 : lo ≤ mid)
    (h2 : mid ≤ hi) (hs : scanFrom f lo mid = some j) : scanFrom f lo hi = some j := by
  rw [scanFrom_split f h1 h2, hs]

theorem scanFrom_split_none {f : Nat → Bool} {lo mid hi : Nat} (h1 : lo ≤ mid)
    (h2 : mid ≤ hi) (hn : scanFrom f lo mid = none) :
    scanFrom f lo hi = scanFrom f mid hi := by
  rw [scanFrom_split f h1 h2, hn]

theorem scanGo_shift (f : Nat → Bool) (b : Nat) :
    ∀ n k, scanGo f n (b + k) = (scanGo (fun t => f (b + t)) n k).map (b + ·) := by
  intro n
  induction n with
  | zero => intro k; simp [scanGo]
  | succ n ih =>
    intro k
    by_cases hk : f (b + k)
    · simp [scanGo, hk]
    · have : (fun t => f (b + t)) k = false := by simpa using hk
      simp only [scanGo, hk, this, if_neg, Bool.false_eq_true, ite_false]
      have := ih (k + 1)
      rw [show b + k + 1 = b + (k + 1) by omega, this]

theorem scanFrom_shift (f : Nat → Bool) (b lo hi : Nat) :
    scanFrom f (b + lo) (b + hi) = (scanFrom (fun t => f (b + t)) lo hi).map (b + ·) := by
  rw [scanFrom, scanFrom, show b + hi - (b + lo) = hi - lo by omega, scanGo_shift]

theorem scanGo_congr {f g : Nat → Bool} :
    ∀ {n k : Nat}, (∀ t, k ≤ t → t < k + n → f t = g t) → scanGo f n k = scanGo g n k := by
  intro n
  induction n with
  | zero => intro k _; rfl
  | succ n ih =>
    intro k h
    have hk : f k = g k := h k (le_refl _) (by omega)
    simp only [scanGo, hk]
    by_cases hg : g k
    · simp [hg]
    · simp only [hg, Bool.false_eq_true, if_neg, ite_false]
      exact ih fun t h1 h2 => h t (by omega) (by omega)

/-! ## The 64-bit leaf allocator `BitAlloc64` (`src/bitmap.rs`, lines 345-412)

`BitAlloc64(u64)`: one machine word, bit `i = 1` ⟺ index `i` is free. -/

structure BitAlloc64 where
  bits : Fin 64 → Bool
deriving DecidableEq

namespace BitAlloc64

/-- `BitAlloc64::CAP = u64::BITS = 64`. -/
def CAP : Nat := 64

/-- `BitAlloc64::DEFAULT = Self(0)`: everything used/unavailable. -/
def DEFAULT : BitAlloc64 := ⟨fun _ => false⟩

/-- `self.0.get_bit(i)` for an arbitrary `Nat` index; the `bit_field` crate
asserts `i < 64`, all theorems about it stay in that range (out of range we
totalise to `false`, the value of a bit that was never set). -/
def getb (a : BitAlloc64) (i : Nat) : Bool :=
  if h : i < 64 then a.bits ⟨i, h⟩ else false

/-- `self.0.set_bit(i, v)` (asserts `i < 64`; totalised as no-op beyond). -/
def setb (a : BitAlloc64) (i : Nat) (v : Bool) : BitAlloc64 :=
  ⟨fun j => if j.val = i then v else a.bits j⟩

/-- `u64::trailing_zeros`: index of the lowest set bit, or 64 if none. -/
def trailing_zeros (a : BitAlloc64) : Nat :=
  (scanFrom a.getb 0 64).getD 64

/-- `fn is_empty(&self) -> bool { self.0 == 0 }` -/
def is_empty (a : BitAlloc64) : Bool :=
  decide (∀ i : Fin 64, a.bits i = false)

/-- `fn test(&self, key) -> bool { self.0.get_bit(key) }` -/
def test (a : BitAlloc64) (key : Nat) : Bool :=
  a.getb key

/-- `fn alloc(&mut self)`: take the lowest set (free) bit, if any. -/
def alloc (a : BitAlloc64) : Option Nat × BitAlloc64 :=
  let i := a.trailing_zeros
  if i < CAP then (some i, a.setb i false) else (none, a)

/-- `fn dealloc(&mut self, key)`: `success = !test(key); set_bit(key, true)`. -/
def dealloc (a : BitAlloc64) (key : Nat) : Bool × BitAlloc64 :=
  (! a.test key, a.setb key true)

/-- `fn insert(&mut self, range)`:
`set_bits(range, u64::MAX.get_bits(range))`, i.e. set every bit of the range. -/
def insert (a : BitAlloc64) (s e : Nat) : BitAlloc64 :=
  ⟨fun j => if s ≤ j.val ∧ j.val < e then true else a.bits j⟩

/-- `fn remove(&mut self, range)`: `set_bits(range, 0)`. -/
def remove (a : BitAlloc64) (s e : Nat) : BitAlloc64 :=
  ⟨fun j => if s ≤ j.val ∧ j.val < e then false else a.bits j⟩

/-- `fn next(&self, key)`: `(key..CAP).find(|i| get_bit(i))`. -/
def next (a : BitAlloc64) (key : Nat) : Option Nat :=
  scanFrom a.getb key 64

/-- `fn dealloc_contiguous(&mut self, base, size)`:
if `get_bits(base..base+size) == 0` (no bit of the range is set) then
`insert(base..base+size)` and `true`, else `false`. -/
def dealloc_contiguous (a : BitAlloc64) (base size : Nat) : Bool × BitAlloc64 :=
  if decide (∀ t, base ≤ t → t < base + size → a.getb t = false) then
    (true, a.insert base (base + size))
  else
    (false, a)

/-- The `bit_field` preconditions of `set_bits(s..e, _)` / `get_bits(s..e)`
on a `u64`: `assert!(start < 64); assert!(end <= 64); assert!(start < end)`.
Both `insert` and `remove` perform exactly one such call. -/
def set_bits_ok (s e : Nat) : Prop :=
  s < 64 ∧ e ≤ 64 ∧ s < e

instance (s e : Nat) : Decidable (set_bits_ok s e) := by
  unfold set_bits_ok; infer_instance

theorem is_empty_iff {a : BitAlloc64} :
    a.is_empty = true ↔ ∀ i, i < 64 → a.getb i = false := by
  unfold is_empty getb
  rw [decide_eq_true_iff]
  constructor
  · intro h i hi; simp only [hi, dite_true]; exact h ⟨i, hi⟩
  · intro h i; have := h i.val i.isLt; simpa [i.isLt] using this

theorem getb_eq_false_of_ge {a : BitAlloc64} {i : Nat} (h : 64 ≤ i) : a.getb i = false := by
  unfold getb; simp [show ¬ i < 64 by omega]

end BitAlloc64

/-! ## The cascade composition (`src/bitmap.rs`)

`BitAllocCascade8<T>` (lines 194-319) and `SegmentBitAllocCascade<T, SIZE>`
(lines 35-192) implement the `BitAlloc` trait with literally identical
method bodies; they differ only in the fan-out (8 vs `SIZE`) and in the type
backing the summary bitset (`u8` with `bit_field` ops vs `bitmaps::Bitmap<SIZE>`).
Both summary bitsets are embedded as `Fin N → Bool`, and the common method
bodies are embedded once, as `Cascade`-generic functions parameterised by the
child operations (`BitAllocOps`), then instantiated at the repository's two
concrete usages: `BitAlloc512 = BitAllocCascade8<BitAlloc64>` and
`SegmentBitAllocCascade<BitAlloc512, SIZE>`. -/

/-- The `BitAlloc` trait interface of a child allocator (`bitmap_allocator::BitAlloc`). -/
structure BitAllocOps (γ : Type) where
  CAP : Nat
  alloc : γ → Option Nat × γ
  dealloc : γ → Nat → Bool × γ
  insert : γ → Nat → Nat → γ
  remove : γ → Nat → Nat → γ
  dealloc_contiguous : γ → Nat → Nat → Bool × γ
  is_empty : γ → Bool
  test : γ → Nat → Bool
  next : γ → Nat → Option Nat

/-- The `BitAlloc` implementation of the 64-bit leaf. -/
def leafOps : BitAllocOps BitAlloc64 where
  CAP := BitAlloc64.CAP
  alloc := BitAlloc64.alloc
  dealloc := BitAlloc64.dealloc
  insert := BitAlloc64.insert
  remove := BitAlloc64.remove
  dealloc_contiguous := BitAlloc64.dealloc_contiguous
  is_empty := BitAlloc64.is_empty
  test := BitAlloc64.test
  next := BitAlloc64.next

/-- A cascade node: an `N`-bit summary bitset (bit `i` = 1 ⟺ "child `i` is
believed non-empty") plus `N` children.  Fields `bitset`/`sub` follow
`BitAllocCascade8 { bitset: u8, sub: [T; 8] }`; `SegmentBitAllocCascade`
names them `bitset`/`sub_seg`. -/
structure Cascade (γ : Type) (N : Nat) where
  bitset : Fin N → Bool
  sub : Fin N → γ

instance {γ : Type} {N : Nat} [DecidableEq γ] : DecidableEq (Cascade γ N) := fun a b =>
  if h : a.bitset = b.bitset ∧ a.sub = b.sub then
    Decidable.isTrue (by cases a; cases b; simp only at h; rw [h.1, h.2])
  else
    Decidable.isFalse (fun hh => by cases hh; exact h ⟨rfl, rfl⟩)

/-- Lowest set bit of the summary: `u8::trailing_zeros` (guarded by
`!is_empty`) in `BitAllocCascade8::alloc`, `Bitmap::first_index` in
`SegmentBitAllocCascade::alloc`. -/
def firstTrue {N : Nat} (f : Fin N → Bool) : Option (Fin N) :=
  (List.finRange N).find? f

/-- Begin of the sub-range delegated to child `i` when operating on the
global range `[s, e)`: `if start / T::CAP == i { start % T::CAP } else { 0 }`. -/
def childBegin (s cap i : Nat) : Nat :=
  if s / cap = i then s % cap else 0

/-- End of the sub-range delegated to child `i`:
`if end / T::CAP == i { end % T::CAP } else { T::CAP }`. -/
def childEnd (e cap i : Nat) : Nat :=
  if e / cap = i then e % cap else cap

/-- The child indices `start / T::CAP ..= (end - 1) / T::CAP` visited by
`for_range` and `dealloc_contiguous`.  In Rust `end - 1` underflows (panics)
for `end = 0`; here Nat subtraction truncates, and the `ok` predicates below
record the underflow condition explicitly. -/
def childIdxs (s e cap : Nat) : List Nat :=
  List.range' (s / cap) ((e - 1) / cap + 1 - s / cap)

/-- One iteration of `for_range`'s loop body: apply `f` to child `i`'s
sub-range, then `bitset.set(i, !sub[i].is_empty())`.  (A Rust index `i ≥ N`
would panic; totalised as a no-op, and never reached when `e ≤ CAP * N`.) -/
def applyChild {γ : Type} {N : Nat} (ops : BitAllocOps γ) (f : γ → Nat → Nat → γ)
    (s e : Nat) (a : Cascade γ N) (i : Nat) : Cascade γ N :=
  if h : i < N then
    let c := f (a.sub ⟨i, h⟩) (childBegin s ops.CAP i) (childEnd e ops.CAP i)
    { bitset := fun j => if j = ⟨i, h⟩ then ! ops.is_empty c else a.bitset j
      sub := fun j => if j = ⟨i, h⟩ then c else a.sub j }
  else a

/-- `fn for_range(&mut self, range, f)` (asserts `start <= end` and
`end <= CAP`, loops over the spanned children). -/
def cfor_range {γ : Type} {N : Nat} (ops : BitAllocOps γ) (a : Cascade γ N)
    (s e : Nat) (f : γ → Nat → Nat → γ) : Cascade γ N :=
  (childIdxs s e ops.CAP).foldl (applyChild ops f s e) a

/-- `fn insert(&mut self, range) { self.for_range(range, |sub, r| sub.insert(r)) }` -/
def cinsert {γ : Type} {N : Nat} (ops : BitAllocOps γ) (a : Cascade γ N) (s e : Nat) :
    Cascade γ N :=
  cfor_range ops a s e ops.insert

/-- `fn remove(&mut self, range) { self.for_range(range, |sub, r| sub.remove(r)) }` -/
def cremove {γ : Type} {N : Nat} (ops : BitAllocOps γ) (a : Cascade γ N) (s e : Nat) :
    Cascade γ N :=
  cfor_range ops a s e ops.remove

/-- `fn is_empty(&self)`: `self.bitset == 0` / `self.bitset.is_empty()`. -/
def cis_empty {γ : Type} {N : Nat} (a : Cascade γ N) : Bool :=
  decide (∀ i : Fin N, a.bitset i = false)

/-- `fn test(&self, key) { self.sub[key / T::CAP].test(key % T::CAP) }`
(a Rust index `key / T::CAP ≥ N` panics; totalised to `false`). -/
def ctest {γ : Type} {N : Nat} (ops : BitAllocOps γ) (a : Cascade γ N) (key : Nat) : Bool :=
  if h : key / ops.CAP < N then ops.test (a.sub ⟨key / ops.CAP, h⟩) (key % ops.CAP) else false

/-- `fn alloc(&mut self)`: if non-empty, take the lowest summary bit `i`,
delegate to child `i` (`.unwrap()` — the `(none, _)` child result panics in
Rust; totalised as a failed allocation, unreachable under the summary
invariant), recompute summary bit `i`, return `res + i * T::CAP`. -/
def calloc {γ : Type} {N : Nat} (ops : BitAllocOps γ) (a : Cascade γ N) :
    Option Nat × Cascade γ N :=
  match firstTrue a.bitset with
  | none => (none, a)
  | some i =>
    match ops.alloc (a.sub i) with
    | (some res, c) =>
      (some (res + i.val * ops.CAP),
       { bitset := fun j => if j = i then ! ops.is_empty c else a.bitset j
         sub := fun j => if j = i then c else a.sub j })
    | (none, _) => (none, a)

/-- `fn dealloc(&mut self, key)`: route to child `key / T::CAP`,
unconditionally set that summary bit to 1, delegate with `key % T::CAP`
(a Rust index `key / T::CAP ≥ N` panics in `set_bit`; totalised as no-op). -/
def cdealloc {γ : Type} {N : Nat} (ops : BitAllocOps γ) (a : Cascade γ N) (key : Nat) :
    Bool × Cascade γ N :=
  if h : key / ops.CAP < N then
    let r := ops.dealloc (a.sub ⟨key / ops.CAP, h⟩) (key % ops.CAP)
    (r.1, { bitset := fun j => if j = ⟨key / ops.CAP, h⟩ then true else a.bitset j
            sub := fun j => if j = ⟨key / ops.CAP, h⟩ then r.2 else a.sub j })
  else (false, a)

/-- One iteration of `dealloc_contiguous`'s loop:
`success = success && self.sub[i].dealloc_contiguous(begin, end - begin);
 self.bitset.set_bit(i, !self.sub[i].is_empty());`
Rust's `&&` short-circuits: once `success` is false the child call is
skipped, but the summary bit of child `i` is still refreshed. -/
def dcStep {γ : Type} {N : Nat} (ops : BitAllocOps γ) (s e : Nat)
    (acc : Bool × Cascade γ N) (i : Nat) : Bool × Cascade γ N :=
  if h : i < N then
    let a := acc.2
    if acc.1 then
      let r := ops.dealloc_contiguous (a.sub ⟨i, h⟩)
        (childBegin s ops.CAP i) (childEnd e ops.CAP i - childBegin s ops.CAP i)
      (r.1, { bitset := fun j => if j = ⟨i, h⟩ then ! ops.is_empty r.2 else a.bitset j
              sub := fun j => if j = ⟨i, h⟩ then r.2 else a.sub j })
    else
      (false, { bitset := fun j => if j = ⟨i, h⟩ then ! ops.is_empty (a.sub ⟨i, h⟩) else a.bitset j
                sub := a.sub })
  else acc

/-- `fn dealloc_contiguous(&mut self, base, size)`: reject ranges past the
capacity, else loop over the spanned children accumulating `success`. -/
def cdealloc_contiguous {γ : Type} {N : Nat} (ops : BitAllocOps γ) (a : Cascade γ N)
    (base size : Nat) : Bool × Cascade γ N :=
  if base + size > ops.CAP * N then (false, a)
  else (childIdxs base (base + size) ops.CAP).foldl (dcStep ops base (base + size)) (true, a)

/-- The delegated call `sub[i].dealloc_contiguous(begin, end - begin)` that
`dealloc_contiguous(s..e)` makes (or skips, once `success` is false) for the
spanned child `i`, applied to that child's state in `a`. -/
def childDealloc {γ : Type} {N : Nat} (ops : BitAllocOps γ) (a : Cascade γ N)
    (s e : Nat) (i : Fin N) : Bool × γ :=
  ops.dealloc_contiguous (a.sub i) (childBegin s ops.CAP i.val)
    (childEnd e ops.CAP i.val - childBegin s ops.CAP i.val)

/-- Inner loop of `fn next(&self, key)`: `(idx..N).find_map(...)`, where for
the starting child the child search starts at `key - T::CAP * idx` and for
later children at 0.  Structured as recursion on the remaining child count. -/
def cnextGo {γ : Type} {N : Nat} (ops : BitAllocOps γ) (a : Cascade γ N) (key : Nat) :
    Nat → Nat → Option Nat
  | 0, _ => none
  | fuel + 1, i =>
    if h : i < N then
      if a.bitset ⟨i, h⟩ then
        match ops.next (a.sub ⟨i, h⟩) (if i = key / ops.CAP then key - ops.CAP * i else 0) with
        | some x => some (x + ops.CAP * i)
        | none => cnextGo ops a key fuel (i + 1)
      else cnextGo ops a key fuel (i + 1)
    else none

/-- `fn next(&self, key)`. The fuel `N - key / T::CAP` covers the whole
iterator `(idx..N)`; if `idx ≥ N` the iterator is empty and `none` results. -/
def cnext {γ : Type} {N : Nat} (ops : BitAllocOps γ) (a : Cascade γ N) (key : Nat) :
    Option Nat :=
  cnextGo ops a key (N - key / ops.CAP) (key / ops.CAP)

/-- `pub fn segment_is_free(&self, idx)` of `SegmentBitAllocCascade`
(lines 188-191): `assert!(idx < SIZE); self.sub_seg[idx].is_empty()`.
NOTE: `is_empty()` is true when the child has **no free (1) bits**, i.e. when
every page of the segment is either live-allocated or not inserted. -/
def csegment_is_free {γ : Type} {N : Nat} (ops : BitAllocOps γ) (a : Cascade γ N)
    (idx : Nat) : Bool :=
  if h : idx < N then ops.is_empty (a.sub ⟨idx, h⟩) else false

/-! ## Contiguous-range search (`src/bitmap.rs`, lines 414-495)

`find_contiguous` and `check_contiguous` are generic over `ba: &impl BitAlloc`
but touch it only through `ba.is_empty()` and `ba.next(_)`; they are embedded
generic over the `next` function and the emptiness flag.

Rust's `(x >> a)`/`(x << a)` on indices are written `x / 2 ^ a` / `x * 2 ^ a`,
and the mask computations of `align_up_log2`/`is_aligned_log2` are written
with division/modulus (equal for the power-of-two masks used). -/

/-- `fn align_up_log2(base, align_log2)`:
`(base + ((1 << align_log2) - 1)) & !((1 << align_log2) - 1)`. -/
def align_up_log2 (base align_log2 : Nat) : Nat :=
  (base + (2 ^ align_log2 - 1)) / 2 ^ align_log2 * 2 ^ align_log2

/-- `fn is_aligned_log2(base, align_log2)`:
`(base & ((1 << align_log2) - 1)) == 0`. -/
def is_aligned_log2 (base align_log2 : Nat) : Bool :=
  base % 2 ^ align_log2 == 0

/-- The `while offset < capacity` loop of `find_contiguous`, with `base` and
`offset` as loop state.  Each iteration either returns or strictly increases
`offset` (the gap branch jumps to the next aligned position after `next - 1`,
which exceeds `offset` because `next > offset` there), and iterations run
only while `offset < capacity`, so `capacity + 1` fuel is never exhausted.
The source's `assert!(next > offset)` is the `offset < nxt` test (its failure,
a Rust panic, is totalised to `none` and is unreachable since `next` never
returns an index below its argument). -/
def findLoopGo (nf : Nat → Option Nat) (capacity size align_log2 : Nat) :
    Nat → Nat → Nat → Option Nat
  | 0, _, _ => none
  | fuel + 1, base, offset =>
    if offset < capacity then
      match nf offset with
      | some nxt =>
        if nxt = offset then
          if offset + 1 - base = size then some base
          else findLoopGo nf capacity size align_log2 fuel base (offset + 1)
        else
          if offset < nxt then
            findLoopGo nf capacity size align_log2 fuel
              (((nxt - 1) / 2 ^ align_log2 + 1) * 2 ^ align_log2)
              (((nxt - 1) / 2 ^ align_log2 + 1) * 2 ^ align_log2)
          else none
      | none => none
    else none

/-- `fn find_contiguous(ba, capacity, size, align_log2)`: the guard is
`capacity < (1 << align_log2) || ba.is_empty()`. -/
def find_contiguous (nf : Nat → Option Nat) (empty : Bool)
    (capacity size align_log2 : Nat) : Option Nat :=
  if capacity < 2 ^ align_log2 ∨ empty = true then none
  else
    match nf 0 with
    | some start =>
      let base := align_up_log2 start align_log2
      findLoopGo nf capacity size align_log2 (capacity + 1) base base
    | none => none

/-- The `while offset < capacity` loop of `check_contiguous` (`offset` only
ever increments, same fuel argument as `findLoopGo`). -/
def checkLoopGo (nf : Nat → Option Nat) (capacity size base : Nat) :
    Nat → Nat → Bool
  | 0, _ => false
  | fuel + 1, offset =>
    if offset < capacity then
      match nf offset with
      | some nxt =>
        if nxt = offset then
          if offset + 1 - base = size then true
          else checkLoopGo nf capacity size base fuel (offset + 1)
        else false
      | none => false
    else false

/-- `fn check_contiguous(ba, base, capacity, size, align_log2)`: the guards
are `capacity < (1 << align_log2) || ba.is_empty()` and
`!is_aligned_log2(base, align_log2)`. -/
def check_contiguous (nf : Nat → Option Nat) (empty : Bool)
    (base capacity size align_log2 : Nat) : Bool :=
  if capacity < 2 ^ align_log2 ∨ empty = true then false
  else if ¬ is_aligned_log2 base align_log2 = true then false
  else checkLoopGo nf capacity size base (capacity + 1) base

/-- `fn alloc_contiguous(&mut self, base, size, align_log2)` shared by both
cascade impls: verify (`check_contiguous`) or search (`find_contiguous`),
then `remove` the chosen range and return its base. -/
def calloc_contiguous {γ : Type} {N : Nat} (ops : BitAllocOps γ) (a : Cascade γ N)
    (base? : Option Nat) (size align_log2 : Nat) : Option Nat × Cascade γ N :=
  match base? with
  | some base =>
    if check_contiguous (cnext ops a) (cis_empty a) base (ops.CAP * N) size align_log2 then
      (some base, cremove ops a base (base + size))
    else (none, a)
  | none =>
    match find_contiguous (cnext ops a) (cis_empty a) (ops.CAP * N) size align_log2 with
    | some base => (some base, cremove ops a base (base + size))
    | none => (none, a)

/-! ## `BitAlloc512 = BitAllocCascade8<BitAlloc64>` (`src/bitmap.rs`, line 29) -/

abbrev BitAlloc512 : Type := Cascade BitAlloc64 8

/-- `BitAllocCascade8::DEFAULT { bitset: 0, sub: [T::DEFAULT; 8] }`. -/
def BitAlloc512.DEFAULT : BitAlloc512 :=
  { bitset := fun _ => false, sub := fun _ => BitAlloc64.DEFAULT }

def BitAlloc512.alloc (a : BitAlloc512) : Option Nat × BitAlloc512 :=
  calloc leafOps a

def BitAlloc512.dealloc (a : BitAlloc512) (key : Nat) : Bool × BitAlloc512 :=
  cdealloc leafOps a key

def BitAlloc512.insert (a : BitAlloc512) (s e : Nat) : BitAlloc512 :=
  cinsert leafOps a s e

def BitAlloc512.remove (a : BitAlloc512) (s e : Nat) : BitAlloc512 :=
  cremove leafOps a s e

def BitAlloc512.dealloc_contiguous (a : BitAlloc512) (base size : Nat) : Bool × BitAlloc512 :=
  cdealloc_contiguous leafOps a base size

def BitAlloc512.is_empty (a : BitAlloc512) : Bool :=
  cis_empty a

def BitAlloc512.test (a : BitAlloc512) (key : Nat) : Bool :=
  ctest leafOps a key

def BitAlloc512.next (a : BitAlloc512) (key : Nat) : Option Nat :=
  cnext leafOps a key

def BitAlloc512.alloc_contiguous (a : BitAlloc512) (base? : Option Nat)
    (size align_log2 : Nat) : Option Nat × BitAlloc512 :=
  calloc_contiguous leafOps a base? size align_log2

/-- The `BitAlloc` implementation of `BitAlloc512` (`CAP = T::CAP * 8 = 512`),
used as the child interface of `SegmentBitAllocCascade<BitAlloc512, SIZE>`. -/
def ba512Ops : BitAllocOps BitAlloc512 where
  CAP := BitAlloc64.CAP * 8
  alloc := BitAlloc512.alloc
  dealloc := BitAlloc512.dealloc
  insert := BitAlloc512.insert
  remove := BitAlloc512.remove
  dealloc_contiguous := BitAlloc512.dealloc_contiguous
  is_empty := BitAlloc512.is_empty
  test := BitAlloc512.test
  next := BitAlloc512.next

/-! ## `SegmentBitAllocCascade<BitAlloc512, SIZE>` (`src/bitmap.rs`, lines 35-192),
as instantiated by `SegmentBitmapPageAllocator` (`src/bitmap_allocator.rs`, line 59). -/

abbrev SegmentBitAllocCascade (SIZE : Nat) : Type := Cascade BitAlloc512 SIZE

def SegmentBitAllocCascade.DEFAULT (SIZE : Nat) : SegmentBitAllocCascade SIZE :=
  { bitset := fun _ => false, sub := fun _ => BitAlloc512.DEFAULT }

def SegmentBitAllocCascade.alloc {SIZE : Nat} (a : SegmentBitAllocCascade SIZE) :
    Option Nat × SegmentBitAllocCascade SIZE :=
  calloc ba512Ops a

def SegmentBitAllocCascade.dealloc {SIZE : Nat} (a : SegmentBitAllocCascade SIZE)
    (key : Nat) : Bool × SegmentBitAllocCascade SIZE :=
  cdealloc ba512Ops a key

def SegmentBitAllocCascade.insert {SIZE : Nat} (a : SegmentBitAllocCascade SIZE)
    (s e : Nat) : SegmentBitAllocCascade SIZE :=
  cinsert ba512Ops a s e

def SegmentBitAllocCascade.remove {SIZE : Nat} (a : SegmentBitAllocCascade SIZE)
    (s e : Nat) : SegmentBitAllocCascade SIZE :=
  cremove ba512Ops a s e

def SegmentBitAllocCascade.dealloc_contiguous {SIZE : Nat} (a : SegmentBitAllocCascade SIZE)
    (base size : Nat) : Bool × SegmentBitAllocCascade SIZE :=
  cdealloc_contiguous ba512Ops a base size

def SegmentBitAllocCascade.is_empty {SIZE : Nat} (a : SegmentBitAllocCascade SIZE) : Bool :=
  cis_empty a

def SegmentBitAllocCascade.test {SIZE : Nat} (a : SegmentBitAllocCascade SIZE)
    (key : Nat) : Bool :=
  ctest ba512Ops a key

def SegmentBitAllocCascade.next {SIZE : Nat} (a : SegmentBitAllocCascade SIZE)
    (key : Nat) : Option Nat :=
  cnext ba512Ops a key

def SegmentBitAllocCascade.alloc_contiguous {SIZE : Nat} (a : SegmentBitAllocCascade SIZE)
    (base? : Option Nat) (size align_log2 : Nat) :
    Option Nat × SegmentBitAllocCascade SIZE :=
  calloc_contiguous ba512Ops a base? size align_log2

def SegmentBitAllocCascade.segment_is_free {SIZE : Nat} (a : SegmentBitAllocCascade SIZE)
    (idx : Nat) : Bool :=
  csegment_is_free ba512Ops a idx

/-! ## The summary invariant (spec §8 "summary correctness")

For a cascade node: summary bit `i` == `!children[i].is_empty()`; the
children that are themselves cascade nodes must satisfy their own summary
invariant (`CInv`). -/

/-- Summary bit `i` = `!is_empty(child i)` for all `i`, and every child
satisfies its own invariant `CInv`. -/
def CascadeInv {γ : Type} {N : Nat} (ops : BitAllocOps γ) (CInv : γ → Prop)
    (a : Cascade γ N) : Prop :=
  (∀ i : Fin N, a.bitset i = ! ops.is_empty (a.sub i)) ∧ (∀ i : Fin N, CInv (a.sub i))

instance {γ : Type} {N : Nat} (ops : BitAllocOps γ) (CInv : γ → Prop)
    [DecidablePred CInv] (a : Cascade γ N) : Decidable (CascadeInv ops CInv a) := by
  unfold CascadeInv; infer_instance

/-- The summary invariant of a `BitAlloc512` node (its children are leaves). -/
def BitAlloc512.Inv (a : BitAlloc512) : Prop :=
  CascadeInv leafOps (fun _ => True) a

instance (a : BitAlloc512) : Decidable (BitAlloc512.Inv a) := by
  unfold BitAlloc512.Inv; infer_instance

/-- The summary invariant of a `SegmentBitAllocCascade<BitAlloc512, SIZE>`
node, including the invariant of each inner `BitAlloc512` node. -/
def SegmentBitAllocCascade.Inv {SIZE : Nat} (a : SegmentBitAllocCascade SIZE) : Prop :=
  CascadeInv ba512Ops BitAlloc512.Inv a

instance {SIZE : Nat} (a : SegmentBitAllocCascade SIZE) :
    Decidable (SegmentBitAllocCascade.Inv a) := by
  unfold SegmentBitAllocCascade.Inv; infer_instance

/-! ## Normal-completion predicates for `insert` / `remove` (claim C10)

`for_range` (both cascade impls) `assert!(start <= end)` and
`assert!(end <= CAP)`, then computes the loop bound `(end - 1) / T::CAP`:
for `end = 0` the unsigned `end - 1` underflows (a panic with overflow
checks; a wild out-of-bounds loop without), so `1 ≤ e` is required for
normal completion.  Each spanned child receives `begin..end` which the leaf
hands to `bit_field`'s `set_bits`/`get_bits`; those assert
`start < 64 ∧ end ≤ 64 ∧ start < end` (`set_bits_ok`). -/

/-- Normal completion of `BitAllocCascade8::<BitAlloc64>::insert/remove(s..e)`. -/
def BitAlloc512.for_range_ok (s e : Nat) : Prop :=
  s ≤ e ∧ e ≤ 512 ∧ 1 ≤ e ∧
    ∀ i ∈ childIdxs s e 64, BitAlloc64.set_bits_ok (childBegin s 64 i) (childEnd e 64 i)

instance (s e : Nat) : Decidable (BitAlloc512.for_range_ok s e) := by
  unfold BitAlloc512.for_range_ok; infer_instance

/-- Normal completion of `SegmentBitAllocCascade::<BitAlloc512, SIZE>::insert/remove(s..e)`:
its own asserts and loop bound, plus normal completion of each delegated
`BitAlloc512` sub-range. -/
def SegmentBitAllocCascade.for_range_ok (SIZE : Nat) (s e : Nat) : Prop :=
  s ≤ e ∧ e ≤ 512 * SIZE ∧ 1 ≤ e ∧
    ∀ i ∈ childIdxs s e 512, BitAlloc512.for_range_ok (childBegin s 512 i) (childEnd e 512 i)

instance (SIZE s e : Nat) : Decidable (SegmentBitAllocCascade.for_range_ok SIZE s e) := by
  unfold SegmentBitAllocCascade.for_range_ok; infer_instance

/-! ## Spec-described variant of `dealloc_contiguous` (claim C7)

Modelled from the spec: "split by child, delegate, AND-combine success, and
refresh each touched child's summary bit from `is_empty()`" — i.e. every
spanned child receives its delegated sub-range unconditionally and the
results are AND-combined.  (The source instead writes
`success = success && sub[i].dealloc_contiguous(...)`, whose `&&`
short-circuits.)  Used only to exhibit the divergence from the source. -/
def dcStepSpec {γ : Type} {N : Nat} (ops : BitAllocOps γ) (s e : Nat)
    (acc : Bool × Cascade γ N) (i : Nat) : Bool × Cascade γ N :=
  if h : i < N then
    let a := acc.2
    let r := ops.dealloc_contiguous (a.sub ⟨i, h⟩)
      (childBegin s ops.CAP i) (childEnd e ops.CAP i - childBegin s ops.CAP i)
    (acc.1 && r.1, { bitset := fun j => if j = ⟨i, h⟩ then ! ops.is_empty r.2 else a.bitset j
                     sub := fun j => if j = ⟨i, h⟩ then r.2 else a.sub j })
  else acc

/-- Modelled from the spec (see `dcStepSpec`): `dealloc_contiguous` that
delegates each spanned sub-range and returns the AND of all delegated
results. -/
def cdealloc_contiguous_spec {γ : Type} {N : Nat} (ops : BitAllocOps γ)
    (a : Cascade γ N) (base size : Nat) : Bool × Cascade γ N :=
  if base + size > ops.CAP * N then (false, a)
  else (childIdxs base (base + size) ops.CAP).foldl (dcStepSpec ops base (base + size)) (true, a)

/-! ## The segment-aware page allocator (`src/bitmap_allocator.rs`)

`SegmentBitmapPageAllocator<SIZE>` over `SegmentBitAllocCascade<BitAlloc512, SIZE>`.
External collaborators embedded here:
* `memory_addr::is_aligned(addr, align)` = `addr % align == 0` (the crate's
  mask test, for the power-of-two alignments the allocator asserts);
* `memory_addr::PAGE_SIZE_1G` (aliased `MAX_ALIGN_1GB`) = `2^30`;
* `usize::is_power_of_two` = exactly one set bit;
* `usize::trailing_zeros` bounded by the 64 bits of `usize`;
* `allocator::{AllocError, AllocResult}`. -/

def PAGE_SIZE_1G : Nat := 2 ^ 30

def is_aligned (addr align : Nat) : Bool :=
  addr % align == 0

def is_power_of_two (n : Nat) : Bool :=
  n != 0 && n &&& (n - 1) == 0

def usize_trailing_zeros (n : Nat) : Nat :=
  (scanFrom n.testBit 0 64).getD 64

inductive AllocError where
  | NoMemory
  | InvalidParam
deriving DecidableEq

/-- `AllocResult<usize> = Result<usize, AllocError>`. -/
inductive AllocResult where
  | ok (addr : Nat)
  | error (e : AllocError)
deriving DecidableEq

structure SegmentBitmapPageAllocator (SIZE : Nat) where
  base : Nat
  segment_granularity : Nat
  page_size : Nat
  used_pages : Nat
  total_pages : Nat
  /-- 1 indicates the physical backend of the sub-segment is allocated. -/
  allocated_bitset : Fin SIZE → Bool
  inner : SegmentBitAllocCascade SIZE

instance {SIZE : Nat} : DecidableEq (SegmentBitmapPageAllocator SIZE) := fun a b =>
  if h : a.base = b.base ∧ a.segment_granularity = b.segment_granularity ∧
      a.page_size = b.page_size ∧ a.used_pages = b.used_pages ∧
      a.total_pages = b.total_pages ∧ a.allocated_bitset = b.allocated_bitset ∧
      a.inner = b.inner then
    Decidable.isTrue (by
      obtain ⟨h1, h2, h3, h4, h5, h6, h7⟩ := h
      cases a; cases b
      simp only at h1 h2 h3 h4 h5 h6 h7
      rw [h1, h2, h3, h4, h5, h6, h7])
  else
    Decidable.isFalse (fun hh => by cases hh; exact h ⟨rfl, rfl, rfl, rfl, rfl, rfl, rfl⟩)

namespace SegmentBitmapPageAllocator

/-- `pub fn increase_segment_at(&mut self, segment_base) -> bool`
(lines 107-127).  Asserts `is_aligned(segment_base, segment_granularity)`
(hypothesis of the theorems).  A `segment_idx ≥ SIZE` would fault in the
`bitmaps` backend; totalised as `false` and excluded by hypotheses. -/
def increase_segment_at {SIZE : Nat} (a : SegmentBitmapPageAllocator SIZE)
    (segment_base : Nat) : Bool × SegmentBitmapPageAllocator SIZE :=
  if h : segment_base / a.segment_granularity < SIZE then
    let idx : Fin SIZE := ⟨segment_base / a.segment_granularity, h⟩
    if a.allocated_bitset idx then (false, a)
    else
      let start := idx.val * a.segment_granularity
      (true,
       { a with
         allocated_bitset := fun j => if j = idx then true else a.allocated_bitset j
         inner := SegmentBitAllocCascade.insert a.inner start (start + a.segment_granularity) })
  else (false, a)

/-- `pub fn try_decrease_segment(&mut self)` (lines 129-144): snapshot the
indices of the set bits of `allocated_bitset` (ascending, as
`Bitmap::into_iter` yields them), then for each with
`inner.segment_is_free(idx)` remove the segment's range from the cascade and
clear its active bit. -/
def try_decrease_segment {SIZE : Nat} (a : SegmentBitmapPageAllocator SIZE) :
    SegmentBitmapPageAllocator SIZE :=
  (((List.finRange SIZE).filter (fun i => a.allocated_bitset i)).map Fin.val).foldl
    (fun st idx =>
      if SegmentBitAllocCascade.segment_is_free st.inner idx then
        let start := idx * st.segment_granularity
        { st with
          inner := SegmentBitAllocCascade.remove st.inner start (start + st.segment_granularity)
          allocated_bitset := fun j => if j.val = idx then false else st.allocated_bitset j }
      else st) a

/-- `fn alloc_pages(&mut self, num_pages, align_pow2)` (lines 179-202). -/
def alloc_pages {SIZE : Nat} (a : SegmentBitmapPageAllocator SIZE)
    (num_pages align_pow2 : Nat) : AllocResult × SegmentBitmapPageAllocator SIZE :=
  if align_pow2 > PAGE_SIZE_1G || ! is_aligned align_pow2 a.page_size then
    (AllocResult.error AllocError.InvalidParam, a)
  else
    let ap := align_pow2 / a.page_size
    if ! is_power_of_two ap then (AllocResult.error AllocError.InvalidParam, a)
    else
      let align_log2 := usize_trailing_zeros ap
      if num_pages = 1 then
        match SegmentBitAllocCascade.alloc a.inner with
        | (some idx, inner') =>
          (AllocResult.ok (idx * a.page_size + a.base),
           { a with inner := inner', used_pages := a.used_pages + num_pages })
        | (none, inner') => (AllocResult.error AllocError.NoMemory, { a with inner := inner' })
      else if 1 < num_pages then
        match SegmentBitAllocCascade.alloc_contiguous a.inner none num_pages align_log2 with
        | (some idx, inner') =>
          (AllocResult.ok (idx * a.page_size + a.base),
           { a with inner := inner', used_pages := a.used_pages + num_pages })
        | (none, inner') => (AllocResult.error AllocError.NoMemory, { a with inner := inner' })
      else (AllocResult.error AllocError.InvalidParam, a)

/-- `fn dealloc_pages(&mut self, pos, num_pages)` (lines 235-249).
Asserts `is_aligned(pos, page_size)` (hypothesis of the theorems);
decrements `used_pages` only if the delegated dealloc returned `true`. -/
def dealloc_pages {SIZE : Nat} (a : SegmentBitmapPageAllocator SIZE)
    (pos num_pages : Nat) : SegmentBitmapPageAllocator SIZE :=
  let key := (pos - a.base) / a.page_size
  let r : Bool × SegmentBitAllocCascade SIZE :=
    if num_pages = 1 then SegmentBitAllocCascade.dealloc a.inner key
    else if 1 < num_pages then SegmentBitAllocCascade.dealloc_contiguous a.inner key num_pages
    else (false, a.inner)
  { a with
    inner := r.2
    used_pages := if r.1 then a.used_pages - num_pages else a.used_pages }

end SegmentBitmapPageAllocator

/-! ## Concrete states used by witness and counterexample theorems -/

/-- A `BitAlloc512` whose only free bits are 2 and 5 (both in child 0). -/
def fixtureNext : BitAlloc512 :=
  { bitset := fun j => decide (j.val = 0)
    sub := fun j =>
      if j.val = 0 then ⟨fun b => decide (b.val = 2 ∨ b.val = 5)⟩ else BitAlloc64.DEFAULT }

/-- A leaf whose only free bit is 3. -/
def fixtureLeaf : BitAlloc64 :=
  ⟨fun b => decide (b.val = 3)⟩

/-- A `BitAlloc512` whose only free bits are 3, 4, 5 (all in child 0). -/
def fixtureContig : BitAlloc512 :=
  { bitset := fun j => decide (j.val = 0)
    sub := fun j =>
      if j.val = 0 then ⟨fun b => decide (3 ≤ b.val ∧ b.val ≤ 5)⟩ else BitAlloc64.DEFAULT }

/-- A `BitAlloc512` whose only free bit is 32 (in child 0); children 1..7 are
fully used. -/
def fixtureDc : BitAlloc512 :=
  { bitset := fun j => decide (j.val = 0)
    sub := fun j =>
      if j.val = 0 then ⟨fun b => decide (b.val = 32)⟩ else BitAlloc64.DEFAULT }

/-- A fully-free `BitAlloc512`: all 512 bits set, all summary bits set. -/
def fixtureFull : BitAlloc512 :=
  { bitset := fun _ => true, sub := fun _ => ⟨fun _ => true⟩ }

/-- A page allocator with 2 segments (granularity 512, page size 1, base 0):
segment 0 is active with all 512 of its pages live-allocated (all bits 0),
segment 1 is active and entirely free (all 512 bits 1). -/
def fixtureTryDecrease : SegmentBitmapPageAllocator 2 where
  base := 0
  segment_granularity := 512
  page_size := 1
  used_pages := 512
  total_pages := 1024
  allocated_bitset := fun _ => true
  inner :=
    { bitset := fun j => decide (j.val = 1)
      sub := fun j => if j.val = 1 then fixtureFull else BitAlloc512.DEFAULT }

/-- A fresh page allocator with one segment (granularity 512, page size 1,
base 0), no segment active, cascade all-used. -/
def fixtureFresh : SegmentBitmapPageAllocator 1 where
  base := 0
  segment_granularity := 512
  page_size := 1
  used_pages := 0
  total_pages := 512
  allocated_bitset := fun _ => false
  inner := SegmentBitAllocCascade.DEFAULT 1

/-- A page allocator (1 segment, page size 1, base 0) whose only free page is
page 0; every other page is used; `used_pages = 2`. -/
def fixtureDealloc : SegmentBitmapPageAllocator 1 where
  base := 0
  segment_granularity := 512
  page_size := 1
  used_pages := 2
  total_pages := 512
  allocated_bitset := fun _ => true
  inner :=
    { bitset := fun _ => true
      sub := fun _ =>
        { bitset := fun j => decide (j.val = 0)
          sub := fun j =>
            if j.val = 0 then ⟨fun b => decide (b.val = 0)⟩ else BitAlloc64.DEFAULT } }

/-- A page allocator with `page_size = 2`, base 0, one segment, whose lowest
free page index is 1 (an odd page index, i.e. address 2). -/
def fixtureAlign : SegmentBitmapPageAllocator 1 where
  base := 0
  segment_granularity := 1024
  page_size := 2
  used_pages := 0
  total_pages := 512
  allocated_bitset := fun _ => true
  inner :=
    { bitset := fun _ => true
      sub := fun _ =>
        { bitset := fun j => decide (j.val = 0)
          sub := fun j =>
            if j.val = 0 then ⟨fun b => decide (b.val = 1)⟩ else BitAlloc64.DEFAULT } }

/-! # Theorems -/

/-! ## Leaf lemmas -/

theorem BitAlloc64.getb_setb (a : BitAlloc64) (i : Nat) (v : Bool) (k : Nat) (hk : k < 64) :
    (a.setb i v).getb k = if k = i then v else a.getb k := by
  unfold setb getb
  by_cases h : k = i
  · subst h; simp [hk]
  · simp [hk, h]

theorem BitAlloc64.getb_insert (a : BitAlloc64) (s e k : Nat) (hk : k < 64) :
    (a.insert s e).getb k = if s ≤ k ∧ k < e then true else a.getb k := by
  unfold insert getb
  by_cases h : s ≤ k ∧ k < e <;> simp [hk, h]

theorem BitAlloc64.getb_remove (a : BitAlloc64) (s e k : Nat) (hk : k < 64) :
    (a.remove s e).getb k = if s ≤ k ∧ k < e then false else a.getb k := by
  unfold remove getb
  by_cases h : s ≤ k ∧ k < e <;> simp [hk, h]

theorem BitAlloc64.is_empty_eq_false_iff {a : BitAlloc64} :
    a.is_empty = false ↔ ∃ i, i < 64 ∧ a.getb i = true := by
  constructor
  · intro h
    by_contra hc
    push_neg at hc
    have hemp : a.is_empty = true := is_empty_iff.mpr fun i hi => by
      have := hc i hi
      cases hgb : a.getb i
      · rfl
      · exact absurd hgb this
    rw [hemp] at h
    exact absurd h (by simp)
  · rintro ⟨i, hi, hgb⟩
    cases hemp : a.is_empty
    · rfl
    · have := is_empty_iff.mp hemp i hi
      rw [hgb] at this
      exact absurd this (by simp)

/-- Non-emptiness makes the leaf `alloc` succeed with the lowest free bit. -/
theorem BitAlloc64.alloc_of_not_empty {a : BitAlloc64} (h : a.is_empty = false) :
    ∃ i, i < 64 ∧ scanFrom a.getb 0 64 = some i ∧
      a.alloc = (some i, a.setb i false) := by
  obtain ⟨i, hi, hgb⟩ := is_empty_eq_false_iff.mp h
  cases hscan : scanFrom a.getb 0 64 with
  | none =>
    rw [scanFrom_eq_none (by omega)] at hscan
    have := hscan i (by omega) hi
    rw [hgb] at this; exact absurd this (by simp)
  | some j =>
    obtain ⟨_, hj2, _, _⟩ := scanFrom_eq_some hscan
    refine ⟨j, hj2, rfl, ?_⟩
    unfold alloc trailing_zeros
    rw [hscan]
    simp [CAP, hj2]

theorem BitAlloc64.alloc_of_empty {a : BitAlloc64} (h : a.is_empty = true) :
    a.alloc = (none, a) := by
  have hall : ∀ t, 0 ≤ t → t < 64 → a.getb t = false := fun t _ ht => is_empty_iff.mp h t ht
  have hscan : scanFrom a.getb 0 64 = none := (scanFrom_eq_none (by omega)).mpr hall
  unfold alloc trailing_zeros
  rw [hscan]
  simp [CAP]

/-- A leaf `dealloc` of an in-range key makes the leaf non-empty. -/
theorem BitAlloc64.dealloc_not_empty (a : BitAlloc64) {key : Nat} (h : key < 64) :
    (a.dealloc key).2.is_empty = false := by
  unfold dealloc
  rw [Bool.eq_false_iff]
  intro hemp
  have := is_empty_iff.mp hemp key h
  rw [getb_setb a key true key h] at this
  simp at this

/-- A leaf `dealloc` returns whether the bit was previously used
(`success = !test(key)`). -/
theorem BitAlloc64.dealloc_fst (a : BitAlloc64) (key : Nat) :
    (a.dealloc key).1 = ! a.test key := rfl

/-! ## `childIdxs` lemmas -/

theorem mem_childIdxs {s e cap i : Nat} :
    i ∈ childIdxs s e cap ↔ s / cap ≤ i ∧ i ≤ (e - 1) / cap := by
  unfold childIdxs
  rw [List.mem_range'_1]
  omega

theorem nodup_childIdxs (s e cap : Nat) : (childIdxs s e cap).Nodup := by
  unfold childIdxs
  rw [List.range'_eq_map_range]
  exact (List.nodup_range _).map fun _ _ => by omega

theorem nodup_range' (s n : Nat) : (List.range' s n).Nodup := by
  rw [List.range'_eq_map_range]
  exact (List.nodup_range _).map fun _ _ => by omega

theorem childIdxs_lt {s e cap N : Nat} (hcap : 0 < cap) (he : e ≤ cap * N) (h1 : 1 ≤ e) :
    ∀ i ∈ childIdxs s e cap, i < N := by
  intro i hi
  rw [mem_childIdxs] at hi
  have hlt : e - 1 < N * cap := by rw [Nat.mul_comm]; omega
  have hdiv : (e - 1) / cap < N := (Nat.div_lt_iff_lt_mul hcap).mpr hlt
  omega

/-! ## `for_range` characterisation -/

theorem applyChild_eq {γ : Type} {N : Nat} (ops : BitAllocOps γ) (f : γ → Nat → Nat → γ)
    (s e : Nat) (a : Cascade γ N) {i : Nat} (h : i < N) :
    applyChild ops f s e a i =
      { bitset := fun j => if j = ⟨i, h⟩ then
          ! ops.is_empty (f (a.sub ⟨i, h⟩) (childBegin s ops.CAP i) (childEnd e ops.CAP i))
          else a.bitset j
        sub := fun j => if j = ⟨i, h⟩ then
          f (a.sub ⟨i, h⟩) (childBegin s ops.CAP i) (childEnd e ops.CAP i)
          else a.sub j } := by
  unfold applyChild
  rw [dif_pos h]

theorem foldl_applyChild {γ : Type} {N : Nat} (ops : BitAllocOps γ) (f : γ → Nat → Nat → γ)
    (s e : Nat) (l : List Nat) (hnd : l.Nodup) (hlt : ∀ i ∈ l, i < N) :
    ∀ (a : Cascade γ N) (j : Fin N),
      ((l.foldl (applyChild ops f s e) a).sub j =
        if j.val ∈ l then f (a.sub j) (childBegin s ops.CAP j.val) (childEnd e ops.CAP j.val)
        else a.sub j) ∧
      ((l.foldl (applyChild ops f s e) a).bitset j =
        if j.val ∈ l then
          ! ops.is_empty (f (a.sub j) (childBegin s ops.CAP j.val) (childEnd e ops.CAP j.val))
        else a.bitset j) := by
  induction l with
  | nil => intro a j; simp
  | cons i l ih =>
    intro a j
    have hiN : i < N := hlt i (by simp)
    have hni : i ∉ l := (List.nodup_cons.mp hnd).1
    obtain ⟨ihs, ihb⟩ := ih hnd.of_cons (fun x hx => hlt x (List.mem_cons_of_mem _ hx))
      (applyChild ops f s e a i) j
    simp only [List.foldl_cons]
    rw [applyChild_eq ops f s e a hiN] at ihs ihb ⊢
    by_cases hji : j.val = i
    · have hj : j = ⟨i, hiN⟩ := Fin.ext hji
      subst hj
      simp only [Fin.val_mk, hni, if_pos rfl, ite_false, if_false] at ihs ihb
      constructor
      · rw [ihs]; simp
      · rw [ihb]; simp
    · have hj : ¬ j = ⟨i, hiN⟩ := fun hh => hji (by rw [hh])
      simp only [if_neg hj] at ihs ihb
      constructor
      · rw [ihs]; simp [List.mem_cons, hji]
      · rw [ihb]; simp [List.mem_cons, hji]

theorem cfor_range_spec {γ : Type} {N : Nat} (ops : BitAllocOps γ) (a : Cascade γ N)
    (s e : Nat) (f : γ → Nat → Nat → γ)
    (hlt : ∀ i ∈ childIdxs s e ops.CAP, i < N) (j : Fin N) :
    ((cfor_range ops a s e f).sub j =
      if j.val ∈ childIdxs s e ops.CAP then
        f (a.sub j) (childBegin s ops.CAP j.val) (childEnd e ops.CAP j.val)
      else a.sub j) ∧
    ((cfor_range ops a s e f).bitset j =
      if j.val ∈ childIdxs s e ops.CAP then
        ! ops.is_empty (f (a.sub j) (childBegin s ops.CAP j.val) (childEnd e ops.CAP j.val))
      else a.bitset j) :=
  foldl_applyChild ops f s e (childIdxs s e ops.CAP) (nodup_childIdxs s e ops.CAP) hlt a j

/-! ## Summary facts about the cascade bitset -/

theorem firstTrue_eq_none_iff {N : Nat} {f : Fin N → Bool} :
    firstTrue f = none ↔ ∀ i, f i = false := by
  unfold firstTrue
  rw [List.find?_eq_none]
  constructor
  · intro h i
    have := h i (List.mem_finRange i)
    cases hf : f i
    · rfl
    · exact absurd hf this
  · intro h i _
    rw [h i]; simp

theorem firstTrue_some_bit {N : Nat} {f : Fin N → Bool} {i : Fin N}
    (h : firstTrue f = some i) : f i = true :=
  List.find?_some h

theorem cis_empty_iff {γ : Type} {N : Nat} {a : Cascade γ N} :
    cis_empty a = true ↔ ∀ i, a.bitset i = false := by
  unfold cis_empty
  exact decide_eq_true_iff

theorem cis_empty_eq_false_of_bit {γ : Type} {N : Nat} {a : Cascade γ N} (i : Fin N)
    (h : a.bitset i = true) : cis_empty a = false := by
  cases hemp : cis_empty a
  · rfl
  · have := cis_empty_iff.mp hemp i
    rw [h] at this
    exact absurd this (by simp)

theorem firstTrue_eq_none_iff_empty {γ : Type} {N : Nat} (a : Cascade γ N) :
    firstTrue a.bitset = none ↔ cis_empty a = true := by
  rw [firstTrue_eq_none_iff, cis_empty_iff]

/-! ## Preservation of the summary invariant by every mutating operation -/

/-- A `foldl` preserves any invariant its step preserves. -/
theorem foldl_preserves {α β : Type} (P : α → Prop) (step : α → β → α)
    (h : ∀ a b, P a → P (step a b)) :
    ∀ (l : List β) (a : α), P a → P (l.foldl step a) := by
  intro l
  induction l with
  | nil => intro a ha; exact ha
  | cons b l ih => intro a ha; exact ih (step a b) (h a b ha)

theorem applyChild_inv {γ : Type} {N : Nat} (ops : BitAllocOps γ) (CInv : γ → Prop)
    (f : γ → Nat → Nat → γ) (hf : ∀ c s' e', CInv c → CInv (f c s' e'))
    (s e : Nat) (a : Cascade γ N) (i : Nat) (ha : CascadeInv ops CInv a) :
    CascadeInv ops CInv (applyChild ops f s e a i) := by
  unfold applyChild
  by_cases h : i < N
  · rw [dif_pos h]
    constructor
    · intro j
      by_cases hj : j = ⟨i, h⟩
      · simp [hj]
      · simp only [if_neg hj]; exact ha.1 j
    · intro j
      by_cases hj : j = ⟨i, h⟩
      · simp only [hj, if_pos rfl]; exact hf _ _ _ (ha.2 _)
      · simp only [if_neg hj]; exact ha.2 j
  · rw [dif_neg h]; exact ha

theorem cfor_range_inv {γ : Type} {N : Nat} (ops : BitAllocOps γ) (CInv : γ → Prop)
    (f : γ → Nat → Nat → γ) (hf : ∀ c s' e', CInv c → CInv (f c s' e'))
    (a : Cascade γ N) (s e : Nat) (ha : CascadeInv ops CInv a) :
    CascadeInv ops CInv (cfor_range ops a s e f) :=
  foldl_preserves (CascadeInv ops CInv) (applyChild ops f s e)
    (fun a' i ha' => applyChild_inv ops CInv f hf s e a' i ha') (childIdxs s e ops.CAP) a ha

theorem calloc_inv {γ : Type} {N : Nat} (ops : BitAllocOps γ) (CInv : γ → Prop)
    (halloc : ∀ c, CInv c → CInv (ops.alloc c).2)
    (a : Cascade γ N) (ha : CascadeInv ops CInv a) :
    CascadeInv ops CInv (calloc ops a).2 := by
  unfold calloc
  cases hft : firstTrue a.bitset with
  | none => exact ha
  | some i =>
    cases halc : ops.alloc (a.sub i) with
    | mk r c =>
      have hc : CInv c := by
        have := halloc (a.sub i) (ha.2 i)
        rw [halc] at this
        exact this
      cases r with
      | none => simp only [halc]; exact ha
      | some res =>
        simp only [halc]
        constructor
        · intro j
          by_cases hj : j = i
          · simp [hj]
          · simp only [if_neg hj]; exact ha.1 j
        · intro j
          by_cases hj : j = i
          · simp only [hj, if_pos rfl]; exact hc
          · simp only [if_neg hj]; exact ha.2 j

/-- Under the summary invariant, the child chosen by `alloc` is non-empty, so
the source's `.unwrap()` cannot panic (provided the child's `alloc` succeeds
on invariant non-empty children). -/
theorem calloc_no_panic {γ : Type} {N : Nat} (ops : BitAllocOps γ) (CInv : γ → Prop)
    (hsome : ∀ c, CInv c → ops.is_empty c = false → (ops.alloc c).1.isSome)
    (a : Cascade γ N) (ha : CascadeInv ops CInv a) (hne : cis_empty a = false) :
    (calloc ops a).1.isSome := by
  unfold calloc
  cases hft : firstTrue a.bitset with
  | none =>
    rw [firstTrue_eq_none_iff_empty] at hft
    rw [hft] at hne
    exact absurd hne (by simp)
  | some i =>
    have hbit : a.bitset i = true := firstTrue_some_bit hft
    have hsub : ops.is_empty (a.sub i) = false := by
      have := ha.1 i
      rw [hbit] at this
      cases hse : ops.is_empty (a.sub i)
      · rfl
      · rw [hse] at this; exact absurd this (by simp)
    have := hsome (a.sub i) (ha.2 i) hsub
    cases halc : ops.alloc (a.sub i) with
    | mk r c =>
      rw [halc] at this
      cases r with
      | none => exact absurd this (by simp)
      | some res => simp only [halc]; simp

theorem cdealloc_inv {γ : Type} {N : Nat} (ops : BitAllocOps γ) (CInv : γ → Prop)
    (hdealloc : ∀ c k, k < ops.CAP → CInv c →
      CInv (ops.dealloc c k).2 ∧ ops.is_empty (ops.dealloc c k).2 = false)
    (a : Cascade γ N) (key : Nat) (hkey : key / ops.CAP < N) (hcap : 0 < ops.CAP)
    (ha : CascadeInv ops CInv a) :
    CascadeInv ops CInv (cdealloc ops a key).2 := by
  unfold cdealloc
  rw [dif_pos hkey]
  have hmod : key % ops.CAP < ops.CAP := Nat.mod_lt _ hcap
  obtain ⟨hci, hcne⟩ := hdealloc (a.sub ⟨key / ops.CAP, hkey⟩) (key % ops.CAP) hmod
    (ha.2 ⟨key / ops.CAP, hkey⟩)
  constructor
  · intro j
    by_cases hj : j = ⟨key / ops.CAP, hkey⟩
    · simp [hj, hcne]
    · simp only [if_neg hj]; exact ha.1 j
  · intro j
    by_cases hj : j = ⟨key / ops.CAP, hkey⟩
    · simp only [hj, if_pos rfl]; exact hci
    · simp only [if_neg hj]; exact ha.2 j

/-- A cascade `dealloc` with an in-range key leaves the cascade non-empty
(its summary bit for the routed child is set unconditionally). -/
theorem cdealloc_not_empty {γ : Type} {N : Nat} (ops : BitAllocOps γ)
    (a : Cascade γ N) (key : Nat) (hkey : key / ops.CAP < N) :
    cis_empty (cdealloc ops a key).2 = false := by
  unfold cdealloc
  rw [dif_pos hkey]
  exact cis_empty_eq_false_of_bit ⟨key / ops.CAP, hkey⟩ (by simp)

theorem dcStep_inv {γ : Type} {N : Nat} (ops : BitAllocOps γ) (CInv : γ → Prop)
    (hdc : ∀ c b n, CInv c → CInv (ops.dealloc_contiguous c b n).2)
    (s e : Nat) (acc : Bool × Cascade γ N) (i : Nat) (ha : CascadeInv ops CInv acc.2) :
    CascadeInv ops CInv (dcStep ops s e acc i).2 := by
  unfold dcStep
  by_cases h : i < N
  · rw [dif_pos h]
    by_cases hs : acc.1
    · simp only [hs, if_pos rfl, ite_true]
      constructor
      · intro j
        by_cases hj : j = ⟨i, h⟩
        · simp [hj]
        · simp only [if_neg hj]; exact ha.1 j
      · intro j
        by_cases hj : j = ⟨i, h⟩
        · simp only [hj, if_pos rfl]; exact hdc _ _ _ (ha.2 _)
        · simp only [if_neg hj]; exact ha.2 j
    · simp only [hs, Bool.false_eq_true, ite_false, if_false]
      constructor
      · intro j
        by_cases hj : j = ⟨i, h⟩
        · simp [hj]
        · simp only [if_neg hj]; exact ha.1 j
      · intro j; exact ha.2 j
  · rw [dif_neg h]; exact ha

theorem cdealloc_contiguous_inv {γ : Type} {N : Nat} (ops : BitAllocOps γ) (CInv : γ → Prop)
    (hdc : ∀ c b n, CInv c → CInv (ops.dealloc_contiguous c b n).2)
    (a : Cascade γ N) (base size : Nat) (ha : CascadeInv ops CInv a) :
    CascadeInv ops CInv (cdealloc_contiguous ops a base size).2 := by
  unfold cdealloc_contiguous
  by_cases h : base + size > ops.CAP * N
  · rw [if_pos h]; exact ha
  · rw [if_neg h]
    have : ∀ (acc : Bool × Cascade γ N) (i : Nat),
        CascadeInv ops CInv acc.2 → CascadeInv ops CInv (dcStep ops base (base + size) acc i).2 :=
      fun acc i hacc => dcStep_inv ops CInv hdc base (base + size) acc i hacc
    exact foldl_preserves (fun acc => CascadeInv ops CInv acc.2) _ this
      (childIdxs base (base + size) ops.CAP) (true, a) ha

theorem calloc_contiguous_inv {γ : Type} {N : Nat} (ops : BitAllocOps γ) (CInv : γ → Prop)
    (hremove : ∀ c s' e', CInv c → CInv (ops.remove c s' e'))
    (a : Cascade γ N) (base? : Option Nat) (size align_log2 : Nat)
    (ha : CascadeInv ops CInv a) :
    CascadeInv ops CInv (calloc_contiguous ops a base? size align_log2).2 := by
  cases base? with
  | some base =>
    simp only [calloc_contiguous]
    by_cases h : check_contiguous (cnext ops a) (cis_empty a) base (ops.CAP * N) size align_log2 = true
    · rw [if_pos h]; exact cfor_range_inv ops CInv ops.remove hremove a base (base + size) ha
    · rw [if_neg h]; exact ha
  | none =>
    simp only [calloc_contiguous]
    cases hfind : find_contiguous (cnext ops a) (cis_empty a) (ops.CAP * N) size align_log2 with
    | some base => exact cfor_range_inv ops CInv ops.remove hremove a base (base + size) ha
    | none => exact ha

/-! ## Invariant lemmas instantiated at `BitAlloc512` -/

theorem BitAlloc512.Inv_DEFAULT : BitAlloc512.Inv BitAlloc512.DEFAULT := by
  constructor
  · intro i
    show false = ! leafOps.is_empty BitAlloc64.DEFAULT
    decide
  · intro i; trivial

theorem BitAlloc512.Inv_alloc (a : BitAlloc512) (h : a.Inv) : (BitAlloc512.alloc a).2.Inv :=
  calloc_inv leafOps _ (fun _ _ => trivial) a h

theorem BitAlloc512.Inv_dealloc (a : BitAlloc512) (key : Nat) (hkey : key < 512)
    (h : a.Inv) : (BitAlloc512.dealloc a key).2.Inv :=
  cdealloc_inv leafOps _
    (fun c k hk _ => ⟨trivial, BitAlloc64.dealloc_not_empty c hk⟩)
    a key (show key / 64 < 8 by omega) (by decide) h

theorem BitAlloc512.Inv_insert (a : BitAlloc512) (s e : Nat) (h : a.Inv) :
    (BitAlloc512.insert a s e).Inv :=
  cfor_range_inv leafOps _ leafOps.insert (fun _ _ _ _ => trivial) a s e h

theorem BitAlloc512.Inv_remove (a : BitAlloc512) (s e : Nat) (h : a.Inv) :
    (BitAlloc512.remove a s e).Inv :=
  cfor_range_inv leafOps _ leafOps.remove (fun _ _ _ _ => trivial) a s e h

theorem BitAlloc512.Inv_dealloc_contiguous (a : BitAlloc512) (base size : Nat)
    (h : a.Inv) : (BitAlloc512.dealloc_contiguous a base size).2.Inv :=
  cdealloc_contiguous_inv leafOps _ (fun _ _ _ _ => trivial) a base size h

theorem BitAlloc512.Inv_alloc_contiguous (a : BitAlloc512) (base? : Option Nat)
    (size align_log2 : Nat) (h : a.Inv) :
    (BitAlloc512.alloc_contiguous a base? size align_log2).2.Inv :=
  calloc_contiguous_inv leafOps _ (fun _ _ _ _ => trivial) a base? size align_log2 h

theorem BitAlloc512.dealloc_result_not_empty (a : BitAlloc512) (key : Nat) (hkey : key < 512) :
    (BitAlloc512.dealloc a key).2.is_empty = false :=
  cdealloc_not_empty leafOps a key (show key / 64 < 8 by omega)

/-- Under the invariant, a non-empty `BitAlloc512` allocates successfully
(so the `.unwrap()` in its parent's `alloc` cannot panic). -/
theorem BitAlloc512.alloc_isSome (a : BitAlloc512) (h : a.Inv)
    (hne : a.is_empty = false) : (BitAlloc512.alloc a).1.isSome :=
  calloc_no_panic leafOps _
    (fun c _ hce => by
      obtain ⟨i, _, _, halc⟩ := BitAlloc64.alloc_of_not_empty hce
      rw [show leafOps.alloc = BitAlloc64.alloc from rfl, halc]
      simp)
    a h hne

/-! ## Invariant lemmas instantiated at `SegmentBitAllocCascade<BitAlloc512, SIZE>` -/

theorem SegmentBitAllocCascade.seg_Inv_DEFAULT (SIZE : Nat) :
    (SegmentBitAllocCascade.DEFAULT SIZE).Inv := by
  constructor
  · intro i
    show false = ! ba512Ops.is_empty BitAlloc512.DEFAULT
    decide
  · intro i; exact BitAlloc512.Inv_DEFAULT

theorem SegmentBitAllocCascade.seg_Inv_alloc {SIZE : Nat} (a : SegmentBitAllocCascade SIZE)
    (h : a.Inv) : (SegmentBitAllocCascade.alloc a).2.Inv :=
  calloc_inv ba512Ops _ (fun c hc => BitAlloc512.Inv_alloc c hc) a h

theorem SegmentBitAllocCascade.seg_Inv_dealloc {SIZE : Nat} (a : SegmentBitAllocCascade SIZE)
    (key : Nat) (hkey : key < 512 * SIZE) (h : a.Inv) :
    (SegmentBitAllocCascade.dealloc a key).2.Inv :=
  cdealloc_inv ba512Ops _
    (fun c k hk hc =>
      ⟨BitAlloc512.Inv_dealloc c k hk hc, BitAlloc512.dealloc_result_not_empty c k hk⟩)
    a key (show key / 512 < SIZE by omega) (by decide) h

theorem SegmentBitAllocCascade.seg_Inv_insert {SIZE : Nat} (a : SegmentBitAllocCascade SIZE)
    (s e : Nat) (h : a.Inv) : (SegmentBitAllocCascade.insert a s e).Inv :=
  cfor_range_inv ba512Ops _ ba512Ops.insert
    (fun c s' e' hc => BitAlloc512.Inv_insert c s' e' hc) a s e h

theorem SegmentBitAllocCascade.seg_Inv_remove {SIZE : Nat} (a : SegmentBitAllocCascade SIZE)
    (s e : Nat) (h : a.Inv) : (SegmentBitAllocCascade.remove a s e).Inv :=
  cfor_range_inv ba512Ops _ ba512Ops.remove
    (fun c s' e' hc => BitAlloc512.Inv_remove c s' e' hc) a s e h

theorem SegmentBitAllocCascade.seg_Inv_dealloc_contiguous {SIZE : Nat}
    (a : SegmentBitAllocCascade SIZE) (base size : Nat) (h : a.Inv) :
    (SegmentBitAllocCascade.dealloc_contiguous a base size).2.Inv :=
  cdealloc_contiguous_inv ba512Ops _
    (fun c b n hc => BitAlloc512.Inv_dealloc_contiguous c b n hc) a base size h

theorem SegmentBitAllocCascade.seg_Inv_alloc_contiguous {SIZE : Nat}
    (a : SegmentBitAllocCascade SIZE) (base? : Option Nat) (size align_log2 : Nat)
    (h : a.Inv) : (SegmentBitAllocCascade.alloc_contiguous a base? size align_log2).2.Inv :=
  calloc_contiguous_inv ba512Ops _
    (fun c s' e' hc => BitAlloc512.Inv_remove c s' e' hc) a base? size align_log2 h

/-- C3: for both cascade types (`BitAllocCascade8<BitAlloc64>` = `BitAlloc512`
and `SegmentBitAllocCascade<BitAlloc512, SIZE>`), the default (all-used) state
satisfies the summary invariant "summary bit i == !children[i].is_empty()
(at every cascade node)", and every mutating operation — `alloc`, `dealloc`,
`insert`, `remove`, `alloc_contiguous`, `dealloc_contiguous` — with index and
range arguments within capacity preserves it. -/
theorem summary_invariant_holds (SIZE : Nat) :
    (BitAlloc512.Inv BitAlloc512.DEFAULT ∧
     (∀ a : BitAlloc512, a.Inv → (BitAlloc512.alloc a).2.Inv) ∧
     (∀ a : BitAlloc512, ∀ key, key < 512 → a.Inv → (BitAlloc512.dealloc a key).2.Inv) ∧
     (∀ a : BitAlloc512, ∀ s e, s ≤ e → e ≤ 512 → a.Inv → (BitAlloc512.insert a s e).Inv) ∧
     (∀ a : BitAlloc512, ∀ s e, s ≤ e → e ≤ 512 → a.Inv → (BitAlloc512.remove a s e).Inv) ∧
     (∀ a : BitAlloc512, ∀ base? size align_log2, size ≤ 512 → a.Inv →
        (BitAlloc512.alloc_contiguous a base? size align_log2).2.Inv) ∧
     (∀ a : BitAlloc512, ∀ base size, base + size ≤ 512 → a.Inv →
        (BitAlloc512.dealloc_contiguous a base size).2.Inv)) ∧
    ((SegmentBitAllocCascade.DEFAULT SIZE).Inv ∧
     (∀ a : SegmentBitAllocCascade SIZE, a.Inv → (SegmentBitAllocCascade.alloc a).2.Inv) ∧
     (∀ a : SegmentBitAllocCascade SIZE, ∀ key, key < 512 * SIZE → a.Inv →
        (SegmentBitAllocCascade.dealloc a key).2.Inv) ∧
     (∀ a : SegmentBitAllocCascade SIZE, ∀ s e, s ≤ e → e ≤ 512 * SIZE → a.Inv →
        (SegmentBitAllocCascade.insert a s e).Inv) ∧
     (∀ a : SegmentBitAllocCascade SIZE, ∀ s e, s ≤ e → e ≤ 512 * SIZE → a.Inv →
        (SegmentBitAllocCascade.remove a s e).Inv) ∧
     (∀ a : SegmentBitAllocCascade SIZE, ∀ base? size align_log2, size ≤ 512 * SIZE → a.Inv →
        (SegmentBitAllocCascade.alloc_contiguous a base? size align_log2).2.Inv) ∧
     (∀ a : SegmentBitAllocCascade SIZE, ∀ base size, base + size ≤ 512 * SIZE → a.Inv →
        (SegmentBitAllocCascade.dealloc_contiguous a base size).2.Inv)) :=
  ⟨⟨BitAlloc512.Inv_DEFAULT,
    fun a h => BitAlloc512.Inv_alloc a h,
    fun a key hk h => BitAlloc512.Inv_dealloc a key hk h,
    fun a s e _ _ h => BitAlloc512.Inv_insert a s e h,
    fun a s e _ _ h => BitAlloc512.Inv_remove a s e h,
    fun a b? sz al _ h => BitAlloc512.Inv_alloc_contiguous a b? sz al h,
    fun a b sz _ h => BitAlloc512.Inv_dealloc_contiguous a b sz h⟩,
   ⟨SegmentBitAllocCascade.seg_Inv_DEFAULT SIZE,
    fun a h => SegmentBitAllocCascade.seg_Inv_alloc a h,
    fun a key hk h => SegmentBitAllocCascade.seg_Inv_dealloc a key hk h,
    fun a s e _ _ h => SegmentBitAllocCascade.seg_Inv_insert a s e h,
    fun a s e _ _ h => SegmentBitAllocCascade.seg_Inv_remove a s e h,
    fun a b? sz al _ h => SegmentBitAllocCascade.seg_Inv_alloc_contiguous a b? sz al h,
    fun a b sz _ h => SegmentBitAllocCascade.seg_Inv_dealloc_contiguous a b sz h⟩⟩

/-! ## Unconditional facts about `next` -/

theorem BitAlloc64.next_some {a : BitAlloc64} {key j : Nat} (h : a.next key = some j) :
    key ≤ j ∧ j < 64 ∧ a.test key = a.test key ∧ a.getb j = true := by
  obtain ⟨h1, h2, h3, _⟩ := scanFrom_eq_some h
  exact ⟨h1, h2, rfl, h3⟩

theorem cnextGo_some {γ : Type} {N : Nat} (ops : BitAllocOps γ) (a : Cascade γ N) (key : Nat)
    (hchild : ∀ (c : γ) (k x : Nat), ops.next c k = some x →
      k ≤ x ∧ x < ops.CAP ∧ ops.test c x = true)
    (hcap : 0 < ops.CAP) :
    ∀ fuel i j, key / ops.CAP ≤ i →
      cnextGo ops a key fuel i = some j →
      key ≤ j ∧ j < ops.CAP * N ∧ ctest ops a j = true := by
  intro fuel
  induction fuel with
  | zero => intro i j _ h; simp [cnextGo] at h
  | succ fuel ih =>
    intro i j hik h
    simp only [cnextGo] at h
    by_cases hiN : i < N
    · rw [dif_pos hiN] at h
      by_cases hb : a.bitset ⟨i, hiN⟩ = true
      · rw [if_pos hb] at h
        cases hcn : ops.next (a.sub ⟨i, hiN⟩)
            (if i = key / ops.CAP then key - ops.CAP * i else 0) with
        | none => rw [hcn] at h; exact ih (i + 1) j (by omega) h
        | some x =>
          rw [hcn] at h
          have hj : x + ops.CAP * i = j := by
            have := h
            simp only [Option.some.injEq] at this
            exact this
          obtain ⟨hx1, hx2, hx3⟩ := hchild _ _ _ hcn
          have hdm := Nat.div_add_mod key ops.CAP
          have hmlt : key % ops.CAP < ops.CAP := Nat.mod_lt _ hcap
          have hquot : ops.CAP * (key / ops.CAP) ≤ key := by omega
          have hkj : key ≤ j := by
            by_cases hiq : i = key / ops.CAP
            · rw [if_pos hiq] at hx1
              subst hiq
              omega
            · rw [if_neg hiq] at hx1
              have hlt : key / ops.CAP < i := by omega
              have hm1 : ops.CAP * (key / ops.CAP + 1) ≤ ops.CAP * i :=
                Nat.mul_le_mul_left _ (by omega)
              have hm2 : ops.CAP * (key / ops.CAP + 1) =
                  ops.CAP * (key / ops.CAP) + ops.CAP := by ring
              omega
          have hjN : j < ops.CAP * N := by
            have hm1 : ops.CAP * (i + 1) ≤ ops.CAP * N := Nat.mul_le_mul_left _ (by omega)
            have hm2 : ops.CAP * (i + 1) = ops.CAP * i + ops.CAP := by ring
            omega
          have hdiv : j / ops.CAP = i := by
            rw [← hj, Nat.add_mul_div_left _ _ hcap, Nat.div_eq_of_lt hx2, Nat.zero_add]
          have hmod : j % ops.CAP = x := by
            rw [← hj, Nat.add_mul_mod_self_left, Nat.mod_eq_of_lt hx2]
          refine ⟨hkj, hjN, ?_⟩
          unfold ctest
          rw [dif_pos (show j / ops.CAP < N by rw [hdiv]; exact hiN)]
          have : (⟨j / ops.CAP, by rw [hdiv]; exact hiN⟩ : Fin N) = ⟨i, hiN⟩ :=
            Fin.ext hdiv
          rw [this, hmod]
          exact hx3
      · rw [if_neg hb] at h
        exact ih (i + 1) j (by omega) h
    · rw [dif_neg hiN] at h
      exact absurd h (by simp)

/-- `BitAlloc512::next` only ever returns a free index at or after its key. -/
theorem BitAlloc512.next_some_spec {a : BitAlloc512} {key j : Nat}
    (h : BitAlloc512.next a key = some j) :
    key ≤ j ∧ j < 512 ∧ BitAlloc512.test a j = true := by
  have := cnextGo_some leafOps a key
    (fun c k x hcx => by
      obtain ⟨h1, h2, _, h4⟩ := BitAlloc64.next_some hcx
      exact ⟨h1, h2, h4⟩)
    (by decide) (8 - key / 64) (key / 64) j (le_refl _) h
  exact this

/-! ## `next` computes the lowest free index under the summary invariant (C5) -/

theorem cnextGo_eq_scan_BA512 (a : BitAlloc512) (hInv : a.Inv) (key : Nat) (hkey : key < 512) :
    ∀ fuel i, key / 64 ≤ i → i ≤ 8 → fuel = 8 - i →
      cnextGo leafOps a key fuel i = scanFrom (BitAlloc512.test a) (max key (64 * i)) 512 := by
  intro fuel
  induction fuel with
  | zero =>
    intro i hqi hi8 hfuel
    have hi : i = 8 := by omega
    subst hi
    rw [show max key (64 * 8) = 512 by omega, scanFrom_none_of_ge (le_refl _)]
    rfl
  | succ fuel ih =>
    intro i hqi hi8 hfuel
    have hiN : i < 8 := by omega
    have hkub : key < 64 * (i + 1) := by omega
    have hstart : max key (64 * i) = 64 * i + (if i = key / 64 then key - 64 * i else 0) := by
      by_cases hiq : i = key / 64
      · rw [if_pos hiq]; omega
      · rw [if_neg hiq]; omega
    have hta : ∀ t, (if i = key / 64 then key - 64 * i else 0) ≤ t → t < 64 →
        BitAlloc512.test a (64 * i + t) = (a.sub ⟨i, hiN⟩).getb t := by
      intro t _ ht
      show ctest leafOps a (64 * i + t) = _
      unfold ctest
      have hdiv : (64 * i + t) / 64 = i := by omega
      have hmod : (64 * i + t) % 64 = t := by omega
      rw [dif_pos (show (64 * i + t) / leafOps.CAP < 8 by
        show (64 * i + t) / 64 < 8; omega)]
      have heq : (⟨(64 * i + t) / 64, by omega⟩ : Fin 8) = ⟨i, hiN⟩ := Fin.ext hdiv
      show BitAlloc64.test (a.sub ⟨(64 * i + t) / 64, by omega⟩) ((64 * i + t) % 64) = _
      rw [heq, hmod]
      rfl
    have hchildscan :
        scanFrom (BitAlloc512.test a) (max key (64 * i)) (64 * (i + 1)) =
          (scanFrom (a.sub ⟨i, hiN⟩).getb
            (if i = key / 64 then key - 64 * i else 0) 64).map (64 * i + ·) := by
      rw [hstart, show 64 * (i + 1) = 64 * i + 64 by ring, scanFrom_shift]
      congr 1
      rw [scanFrom, scanFrom]
      exact scanGo_congr fun t ht1 ht2 => hta t ht1 (by omega)
    simp only [cnextGo]
    rw [dif_pos hiN]
    by_cases hb : a.bitset ⟨i, hiN⟩ = true
    · rw [if_pos hb]
      have hscrut : leafOps.next (a.sub ⟨i, hiN⟩)
          (if i = key / leafOps.CAP then key - leafOps.CAP * i else 0) =
          scanFrom (a.sub ⟨i, hiN⟩).getb (if i = key / 64 then key - 64 * i else 0) 64 := rfl
      rw [hscrut]
      cases hcn : scanFrom (a.sub ⟨i, hiN⟩).getb
          (if i = key / 64 then key - 64 * i else 0) 64 with
      | some x =>
        have hmid : scanFrom (BitAlloc512.test a) (max key (64 * i)) (64 * (i + 1)) =
            some (64 * i + x) := by
          rw [hchildscan, hcn]; rfl
        show some (x + 64 * i) = _
        rw [scanFrom_split_some (show max key (64 * i) ≤ 64 * (i + 1) by omega)
          (show 64 * (i + 1) ≤ 512 by omega) hmid, Nat.add_comm x (64 * i)]
      | none =>
        have hmid : scanFrom (BitAlloc512.test a) (max key (64 * i)) (64 * (i + 1)) =
            none := by
          rw [hchildscan, hcn]; rfl
        show cnextGo leafOps a key fuel (i + 1) = _
        rw [scanFrom_split_none (show max key (64 * i) ≤ 64 * (i + 1) by omega)
            (show 64 * (i + 1) ≤ 512 by omega) hmid,
          ih (i + 1) (by omega) (by omega) (by omega),
          show max key (64 * (i + 1)) = 64 * (i + 1) by omega]
    · rw [if_neg hb]
      have hbf : a.bitset ⟨i, hiN⟩ = false := by
        cases hx : a.bitset ⟨i, hiN⟩
        · rfl
        · exact absurd hx hb
      have hemp : BitAlloc64.is_empty (a.sub ⟨i, hiN⟩) = true := by
        have hInvi := hInv.1 ⟨i, hiN⟩
        rw [hbf] at hInvi
        cases hie : BitAlloc64.is_empty (a.sub ⟨i, hiN⟩)
        · rw [show leafOps.is_empty (a.sub ⟨i, hiN⟩) =
              BitAlloc64.is_empty (a.sub ⟨i, hiN⟩) from rfl, hie] at hInvi
          simp at hInvi
        · rfl
      have hnone : scanFrom (BitAlloc512.test a) (max key (64 * i)) (64 * (i + 1)) = none := by
        rw [scanFrom_eq_none (by omega)]
        intro t ht1 ht2
        have htlo : 64 * i ≤ t := by omega
        have := hta (t - 64 * i) (by omega) (by omega)
        rw [show 64 * i + (t - 64 * i) = t by omega] at this
        rw [this]
        exact BitAlloc64.is_empty_iff.mp hemp (t - 64 * i) (by omega)
      show cnextGo leafOps a key fuel (i + 1) = _
      rw [scanFrom_split_none (show max key (64 * i) ≤ 64 * (i + 1) by omega)
          (show 64 * (i + 1) ≤ 512 by omega) hnone,
        ih (i + 1) (by omega) (by omega) (by omega),
        show max key (64 * (i + 1)) = 64 * (i + 1) by omega]

theorem BitAlloc512.next_eq_scan (a : BitAlloc512) (hInv : a.Inv) (key : Nat) :
    BitAlloc512.next a key = scanFrom (BitAlloc512.test a) key 512 := by
  by_cases hkey : key < 512
  · have := cnextGo_eq_scan_BA512 a hInv key hkey (8 - key / 64) (key / 64)
      (le_refl _) (by omega) rfl
    show cnextGo leafOps a key (8 - key / 64) (key / 64) = _
    rw [this, show max key (64 * (key / 64)) = key by omega]
  · have hdiv : 8 ≤ key / 64 := by omega
    show cnextGo leafOps a key (8 - key / 64) (key / 64) = _
    rw [show 8 - key / 64 = 0 by omega, scanFrom_none_of_ge (by omega)]
    rfl

/-- C5: for every `BitAlloc512` cascade state in which the summary invariant
holds and every key, `next(key)` returns `Some` of the lowest free bit index
≥ key, and returns `None` iff no free bit index ≥ key exists within the
capacity. -/
theorem next_returns_lowest_free (a : BitAlloc512) (key : Nat) (hInv : a.Inv) :
    (∀ j, BitAlloc512.next a key = some j →
       key ≤ j ∧ j < 512 ∧ BitAlloc512.test a j = true ∧
       ∀ k, key ≤ k → k < j → BitAlloc512.test a k = false) ∧
    (BitAlloc512.next a key = none ↔
       ∀ k, key ≤ k → k < 512 → BitAlloc512.test a k = false) := by
  constructor
  · intro j hj
    rw [BitAlloc512.next_eq_scan a hInv key] at hj
    obtain ⟨h1, h2, h3, h4⟩ := scanFrom_eq_some hj
    exact ⟨h1, h2, h3, h4⟩
  · rw [BitAlloc512.next_eq_scan a hInv key]
    by_cases hkey : key ≤ 512
    · exact scanFrom_eq_none hkey
    · rw [scanFrom_none_of_ge (by omega)]
      constructor
      · intro _ k hk1 hk2
        exact absurd hk2 (by omega)
      · intro _
        rfl

/-! ## Soundness of the contiguous-search loops (C4) -/

theorem checkLoopGo_true {nf : Nat → Option Nat} {free : Nat → Bool}
    (hfree : ∀ k, nf k = some k → free k = true) {capacity size base : Nat} :
    ∀ fuel offset, base ≤ offset → (∀ t, base ≤ t → t < offset → free t = true) →
      checkLoopGo nf capacity size base fuel offset = true →
      base + size ≤ capacity ∧ ∀ t, base ≤ t → t < base + size → free t = true := by
  intro fuel
  induction fuel with
  | zero => intro offset _ _ h; simp [checkLoopGo] at h
  | succ fuel ih =>
    intro offset hbo hinv h
    simp only [checkLoopGo] at h
    by_cases hoc : offset < capacity
    · rw [if_pos hoc] at h
      cases hnf : nf offset with
      | none => rw [hnf] at h; exact absurd h (by simp)
      | some nxt =>
        rw [hnf] at h
        dsimp only at h
        by_cases hne : nxt = offset
        · rw [if_pos hne] at h
          have hfo : free offset = true := hfree offset (by rw [hnf, hne])
          have hext : ∀ t, base ≤ t → t < offset + 1 → free t = true := fun t ht1 ht2 => by
            rcases Nat.lt_or_ge t offset with hlt | hge
            · exact hinv t ht1 hlt
            · have hto : t = offset := by omega
              rw [hto]; exact hfo
          by_cases hsz : offset + 1 - base = size
          · exact ⟨by omega, fun t ht1 ht2 => hext t ht1 (by omega)⟩
          · rw [if_neg hsz] at h
            exact ih (offset + 1) (by omega) hext h
        · rw [if_neg hne] at h; exact absurd h (by simp)
    · rw [if_neg hoc] at h; exact absurd h (by simp)

theorem findLoopGo_some {nf : Nat → Option Nat} {free : Nat → Bool}
    (hfree : ∀ k, nf k = some k → free k = true) {capacity size align_log2 : Nat} :
    ∀ fuel base offset b, base ≤ offset → base % 2 ^ align_log2 = 0 →
      (∀ t, base ≤ t → t < offset → free t = true) →
      findLoopGo nf capacity size align_log2 fuel base offset = some b →
      b % 2 ^ align_log2 = 0 ∧ b + size ≤ capacity ∧
        ∀ t, b ≤ t → t < b + size → free t = true := by
  intro fuel
  induction fuel with
  | zero => intro base offset b _ _ _ h; simp [findLoopGo] at h
  | succ fuel ih =>
    intro base offset b hbo hal hinv h
    simp only [findLoopGo] at h
    by_cases hoc : offset < capacity
    · rw [if_pos hoc] at h
      cases hnf : nf offset with
      | none => rw [hnf] at h; exact absurd h (by simp)
      | some nxt =>
        rw [hnf] at h
        dsimp only at h
        by_cases hne : nxt = offset
        · rw [if_pos hne] at h
          have hfo : free offset = true := hfree offset (by rw [hnf, hne])
          have hext : ∀ t, base ≤ t → t < offset + 1 → free t = true := fun t ht1 ht2 => by
            rcases Nat.lt_or_ge t offset with hlt | hge
            · exact hinv t ht1 hlt
            · have hto : t = offset := by omega
              rw [hto]; exact hfo
          by_cases hsz : offset + 1 - base = size
          · rw [if_pos hsz] at h
            have hb : base = b := by simpa using h
            subst hb
            exact ⟨hal, by omega, fun t ht1 ht2 => hext t ht1 (by omega)⟩
          · rw [if_neg hsz] at h
            exact ih base (offset + 1) b (by omega) hal hext h
        · rw [if_neg hne] at h
          by_cases hlt : offset < nxt
          · rw [if_pos hlt] at h
            exact ih (((nxt - 1) / 2 ^ align_log2 + 1) * 2 ^ align_log2)
              (((nxt - 1) / 2 ^ align_log2 + 1) * 2 ^ align_log2) b (le_refl _)
              (Nat.mul_mod_left _ _)
              (fun t ht1 ht2 => absurd (Nat.lt_of_le_of_lt ht1 ht2) (lt_irrefl _)) h
          · rw [if_neg hlt] at h; exact absurd h (by simp)
    · rw [if_neg hoc] at h; exact absurd h (by simp)

theorem find_contiguous_some {nf : Nat → Option Nat} {free : Nat → Bool}
    (hfree : ∀ k, nf k = some k → free k = true) {empty : Bool}
    {capacity size align_log2 b : Nat}
    (h : find_contiguous nf empty capacity size align_log2 = some b) :
    b % 2 ^ align_log2 = 0 ∧ b + size ≤ capacity ∧
      ∀ t, b ≤ t → t < b + size → free t = true := by
  unfold find_contiguous at h
  by_cases hg : capacity < 2 ^ align_log2 ∨ empty = true
  · rw [if_pos hg] at h; exact absurd h (by simp)
  · rw [if_neg hg] at h
    cases hnf : nf 0 with
    | none => rw [hnf] at h; exact absurd h (by simp)
    | some start =>
      rw [hnf] at h
      exact findLoopGo_some hfree (capacity + 1) (align_up_log2 start align_log2)
        (align_up_log2 start align_log2) b (le_refl _) (Nat.mul_mod_left _ _)
        (fun t ht1 ht2 => absurd (Nat.lt_of_le_of_lt ht1 ht2) (lt_irrefl _)) h

theorem check_contiguous_true {nf : Nat → Option Nat} {free : Nat → Bool}
    (hfree : ∀ k, nf k = some k → free k = true) {empty : Bool}
    {base capacity size align_log2 : Nat}
    (h : check_contiguous nf empty base capacity size align_log2 = true) :
    base % 2 ^ align_log2 = 0 ∧ base + size ≤ capacity ∧
      ∀ t, base ≤ t → t < base + size → free t = true := by
  unfold check_contiguous at h
  by_cases hg : capacity < 2 ^ align_log2 ∨ empty = true
  · rw [if_pos hg] at h; exact absurd h (by simp)
  · rw [if_neg hg] at h
    by_cases hal : is_aligned_log2 base align_log2 = true
    · rw [if_neg (show ¬ ¬ is_aligned_log2 base align_log2 = true from fun hh => hh hal)] at h
      have hbal : base % 2 ^ align_log2 = 0 := by
        unfold is_aligned_log2 at hal
        exact beq_iff_eq.mp hal
      obtain ⟨h1, h2⟩ := checkLoopGo_true hfree (capacity + 1) base (le_refl _)
        (fun t ht1 ht2 => absurd (Nat.lt_of_le_of_lt ht1 ht2) (lt_irrefl _)) h
      exact ⟨hbal, h1, h2⟩
    · rw [if_pos hal] at h; exact absurd h (by simp)

/-! ## Relating a global index to its child sub-range (fan-out 8, child cap 64) -/

theorem leafOps_CAP : leafOps.CAP = 64 := rfl

theorem ba512Ops_CAP : ba512Ops.CAP = 512 := rfl

theorem childRange_in_64 {s e k : Nat} (hse : s ≤ e) (he : e ≤ 512) (hk : k < 512)
    (hmem : k / 64 ∈ childIdxs s e 64) :
    (childBegin s 64 (k / 64) ≤ k % 64 ∧ k % 64 < childEnd e 64 (k / 64)) ↔
      (s ≤ k ∧ k < e) := by
  rw [mem_childIdxs] at hmem
  unfold childBegin childEnd
  split_ifs <;> omega

theorem childRange_out_64 {s e k : Nat} (hse : s ≤ e) (h1e : 1 ≤ e) (hk : k < 512)
    (hmem : k / 64 ∉ childIdxs s e 64) : ¬ (s ≤ k ∧ k < e) := by
  rw [mem_childIdxs] at hmem
  omega

theorem BitAlloc512.test_eq (a : BitAlloc512) (k : Nat) (hk : k < 512) :
    BitAlloc512.test a k = (a.sub ⟨k / 64, by omega⟩).getb (k % 64) := by
  show ctest leafOps a k = _
  unfold ctest
  rw [dif_pos (show k / leafOps.CAP < 8 by rw [leafOps_CAP]; omega)]
  rfl

theorem BitAlloc512.remove_sub (a : BitAlloc512) (s e : Nat) (h1e : 1 ≤ e) (he : e ≤ 512)
    (i : Nat) (hi : i < 8) :
    (BitAlloc512.remove a s e).sub ⟨i, hi⟩ =
      if i ∈ childIdxs s e 64 then
        BitAlloc64.remove (a.sub ⟨i, hi⟩) (childBegin s 64 i) (childEnd e 64 i)
      else a.sub ⟨i, hi⟩ := by
  have hlt : ∀ x ∈ childIdxs s e leafOps.CAP, x < 8 := by
    rw [leafOps_CAP]
    exact childIdxs_lt (by omega) (by omega) h1e
  have hspec := (cfor_range_spec leafOps a s e leafOps.remove hlt ⟨i, hi⟩).1
  simpa only [leafOps_CAP] using hspec

theorem BitAlloc512.test_remove (a : BitAlloc512) (s e k : Nat) (hse : s ≤ e)
    (he : e ≤ 512) (h1e : 1 ≤ e) (hk : k < 512) :
    BitAlloc512.test (BitAlloc512.remove a s e) k =
      if s ≤ k ∧ k < e then false else BitAlloc512.test a k := by
  rw [BitAlloc512.test_eq _ k hk, BitAlloc512.test_eq a k hk,
    BitAlloc512.remove_sub a s e h1e he (k / 64) (by omega)]
  by_cases hmem : k / 64 ∈ childIdxs s e 64
  · rw [if_pos hmem, BitAlloc64.getb_remove _ _ _ _ (show k % 64 < 64 by omega)]
    by_cases hglob : s ≤ k ∧ k < e
    · rw [if_pos ((childRange_in_64 hse he hk hmem).mpr hglob), if_pos hglob]
    · rw [if_neg (fun hc => hglob ((childRange_in_64 hse he hk hmem).mp hc)), if_neg hglob]
  · rw [if_neg hmem, if_neg (childRange_out_64 hse h1e hk hmem)]

/-- C4: for every `BitAlloc512` state and every `alloc_contiguous(base?, size,
align_log2)` call with `size ≥ 1` that returns `Some(b)`: `b` is a multiple of
`2^align_log2`, every bit index in `[b, b+size)` was free immediately before
the call, and every bit in that range is marked used immediately after. -/
theorem alloc_contiguous_aligned_and_free (a : BitAlloc512) (base? : Option Nat)
    (size align_log2 b : Nat) (hsz : 1 ≤ size)
    (h : (BitAlloc512.alloc_contiguous a base? size align_log2).1 = some b) :
    b % 2 ^ align_log2 = 0 ∧
    (∀ k, b ≤ k → k < b + size → BitAlloc512.test a k = true) ∧
    (∀ k, b ≤ k → k < b + size →
      BitAlloc512.test (BitAlloc512.alloc_contiguous a base? size align_log2).2 k = false) := by
  have hfree : ∀ k, BitAlloc512.next a k = some k → BitAlloc512.test a k = true :=
    fun k hk => (BitAlloc512.next_some_spec hk).2.2
  have h512 : leafOps.CAP * 8 = 512 := rfl
  cases base? with
  | some base =>
    by_cases hchk : check_contiguous (cnext leafOps a) (cis_empty a) base
        (leafOps.CAP * 8) size align_log2 = true
    · have hres : BitAlloc512.alloc_contiguous a (some base) size align_log2 =
          (some base, BitAlloc512.remove a base (base + size)) := by
        show calloc_contiguous leafOps a (some base) size align_log2 = _
        simp only [calloc_contiguous]
        rw [if_pos hchk]
        rfl
      rw [hres] at h ⊢
      have hb : base = b := by simpa using h
      subst hb
      obtain ⟨hal, hcap, hfr⟩ :=
        check_contiguous_true hfree hchk
      rw [h512] at hcap
      refine ⟨hal, fun k hk1 hk2 => hfr k hk1 hk2, fun k hk1 hk2 => ?_⟩
      rw [BitAlloc512.test_remove a base (base + size) k (by omega) hcap (by omega) (by omega),
        if_pos ⟨hk1, hk2⟩]
    · have hres : BitAlloc512.alloc_contiguous a (some base) size align_log2 = (none, a) := by
        show calloc_contiguous leafOps a (some base) size align_log2 = _
        simp only [calloc_contiguous]
        rw [if_neg hchk]
      rw [hres] at h
      exact absurd h (by simp)
  | none =>
    cases hfind : find_contiguous (cnext leafOps a) (cis_empty a) (leafOps.CAP * 8)
        size align_log2 with
    | none =>
      have hres : BitAlloc512.alloc_contiguous a none size align_log2 = (none, a) := by
        show calloc_contiguous leafOps a none size align_log2 = _
        simp only [calloc_contiguous]
        rw [hfind]
      rw [hres] at h
      exact absurd h (by simp)
    | some base =>
      have hres : BitAlloc512.alloc_contiguous a none size align_log2 =
          (some base, BitAlloc512.remove a base (base + size)) := by
        show calloc_contiguous leafOps a none size align_log2 = _
        simp only [calloc_contiguous]
        rw [hfind]
        rfl
      rw [hres] at h ⊢
      have hb : base = b := by simpa using h
      subst hb
      obtain ⟨hal, hcap, hfr⟩ :=
        find_contiguous_some hfree hfind
      rw [h512] at hcap
      refine ⟨hal, fun k hk1 hk2 => hfr k hk1 hk2, fun k hk1 hk2 => ?_⟩
      rw [BitAlloc512.test_remove a base (base + size) k (by omega) hcap (by omega) (by omega),
        if_pos ⟨hk1, hk2⟩]

/-- Witness for C4: on a `BitAlloc512` with exactly bits 3, 4, 5 free,
`alloc_contiguous(None, 2, align_log2 = 1)` returns base 4 (skipping the
misaligned free bit 3); 4 is even, bit 4 was free before and is used after. -/
theorem alloc_contiguous_aligned_and_free_witness :
    (1 ≤ 2 ∧ (BitAlloc512.alloc_contiguous fixtureContig none 2 1).1 = some 4) ∧
    4 % 2 ^ 1 = 0 ∧ BitAlloc512.test fixtureContig 4 = true ∧
    BitAlloc512.test (BitAlloc512.alloc_contiguous fixtureContig none 2 1).2 4 = false := by
  have h : (BitAlloc512.alloc_contiguous fixtureContig none 2 1).1 = some 4 := by decide
  have hmain := alloc_contiguous_aligned_and_free fixtureContig none 2 1 4 (by decide) h
  exact ⟨⟨by decide, h⟩, hmain.1, hmain.2.1 4 (by decide) (by decide),
    hmain.2.2 4 (by decide) (by decide)⟩

/-- Witness for C5: on a `BitAlloc512` with exactly bits 2 and 5 free (and
the summary invariant holding), `next(3)` finds bit 5 free and bit 4 not. -/
theorem next_returns_lowest_free_witness :
    (BitAlloc512.Inv fixtureNext ∧ BitAlloc512.next fixtureNext 3 = some 5) ∧
    BitAlloc512.test fixtureNext 5 = true ∧ BitAlloc512.test fixtureNext 4 = false := by
  have hInv : BitAlloc512.Inv fixtureNext := by decide
  have h : BitAlloc512.next fixtureNext 3 = some 5 := by decide
  have hmain := (next_returns_lowest_free fixtureNext 3 hInv).1 5 h
  exact ⟨⟨hInv, h⟩, hmain.2.2.1, hmain.2.2.2 4 (by decide) (by decide)⟩

/-- Witness for C3: the default states satisfy the invariant, and it is
preserved by a concrete `insert` and a concrete `dealloc` on each type. -/
theorem summary_invariant_holds_witness :
    BitAlloc512.Inv (BitAlloc512.insert BitAlloc512.DEFAULT 0 512) ∧
    BitAlloc512.Inv (BitAlloc512.dealloc (BitAlloc512.insert BitAlloc512.DEFAULT 0 512) 3).2 ∧
    SegmentBitAllocCascade.Inv (SegmentBitAllocCascade.insert (SegmentBitAllocCascade.DEFAULT 1) 0 512) := by
  have h1 := (summary_invariant_holds 1).1.2.2.2.1 BitAlloc512.DEFAULT 0 512
    (by decide) (by decide) (summary_invariant_holds 1).1.1
  have h2 := (summary_invariant_holds 1).1.2.2.1 (BitAlloc512.insert BitAlloc512.DEFAULT 0 512)
    3 (by decide) h1
  have h3 := (summary_invariant_holds 1).2.2.2.2.1 (SegmentBitAllocCascade.DEFAULT 1) 0 512
    (by decide) (by omega) (summary_invariant_holds 1).2.1
  exact ⟨h1, h2, h3⟩

/-- C6: for the 64-bit leaf `BitAlloc64`, in every state with at least one
free bit, `alloc()` returns `Some(i)` where `i` is the lowest-index free bit,
and marks bit `i` used (leaving all other bits unchanged); in every state
with no free bits (`is_empty`), `alloc()` returns `None` and leaves the state
unchanged. -/
theorem leaf_alloc_lowest_free (a : BitAlloc64) :
    (a.is_empty = true → BitAlloc64.alloc a = (none, a)) ∧
    (a.is_empty = false → ∃ i, (BitAlloc64.alloc a).1 = some i) ∧
    (∀ i, (BitAlloc64.alloc a).1 = some i →
      a.getb i = true ∧ (∀ j, j < i → a.getb j = false) ∧
      (BitAlloc64.alloc a).2.getb i = false ∧
      ∀ j, j < 64 → j ≠ i → (BitAlloc64.alloc a).2.getb j = a.getb j) := by
  refine ⟨BitAlloc64.alloc_of_empty, ?_, ?_⟩
  · intro hne
    obtain ⟨i, hi, hscan, halc⟩ := BitAlloc64.alloc_of_not_empty hne
    exact ⟨i, by rw [halc]⟩
  · intro i hi
    cases hemp : a.is_empty
    · obtain ⟨i', hi', hscan, halc⟩ := BitAlloc64.alloc_of_not_empty hemp
      rw [halc] at hi ⊢
      have hii : i' = i := by simpa using hi
      subst hii
      obtain ⟨_, _, hgb, hmin⟩ := scanFrom_eq_some hscan
      refine ⟨hgb, fun j hj => hmin j (by omega) hj, ?_, ?_⟩
      · rw [BitAlloc64.getb_setb a i' false i' hi']
        simp
      · intro j hj64 hjne
        rw [BitAlloc64.getb_setb a i' false j hj64, if_neg hjne]
    · rw [BitAlloc64.alloc_of_empty hemp] at hi
      exact absurd hi (by simp)

/-- Witness for C6: on a leaf with exactly bit 3 free, `alloc` returns 3,
bit 3 was free before and is used after. -/
theorem leaf_alloc_lowest_free_witness :
    (BitAlloc64.alloc fixtureLeaf).1 = some 3 ∧ fixtureLeaf.getb 3 = true ∧
    (BitAlloc64.alloc fixtureLeaf).2.getb 3 = false := by
  have h : (BitAlloc64.alloc fixtureLeaf).1 = some 3 := by decide
  have hmain := (leaf_alloc_lowest_free fixtureLeaf).2.2 3 h
  exact ⟨h, hmain.1, hmain.2.2.1⟩

/-! ## `dealloc_contiguous` and `&&` short-circuiting (C7) -/

theorem BitAlloc512.test_decompose (a : BitAlloc512) (i t : Nat) (hi : i < 8) (ht : t < 64) :
    BitAlloc512.test a (64 * i + t) = (a.sub ⟨i, hi⟩).getb t := by
  rw [BitAlloc512.test_eq a (64 * i + t) (by omega)]
  rw [show (⟨(64 * i + t) / 64, by omega⟩ : Fin 8) = ⟨i, hi⟩ from
    Fin.ext (by show (64 * i + t) / 64 = i; omega)]
  rw [show (64 * i + t) % 64 = t by omega]

theorem childBounds_64 {s e i : Nat} (hse : s ≤ e) (he : e ≤ 512)
    (hmem : i ∈ childIdxs s e 64) :
    childBegin s 64 i ≤ childEnd e 64 i ∧ childEnd e 64 i ≤ 64 := by
  rw [mem_childIdxs] at hmem
  unfold childBegin childEnd
  split_ifs <;> omega

/-- After a `false` accumulator, the loop of `dealloc_contiguous` only
refreshes summary bits: no child allocator is delegated to. -/
theorem foldl_dcStep_false {γ : Type} {N : Nat} (ops : BitAllocOps γ) (s e : Nat) :
    ∀ (l : List Nat), l.Nodup → (∀ i ∈ l, i < N) → ∀ (a : Cascade γ N),
      (l.foldl (dcStep ops s e) (false, a)).1 = false ∧
      (∀ j : Fin N, (l.foldl (dcStep ops s e) (false, a)).2.sub j = a.sub j) ∧
      (∀ j : Fin N, (l.foldl (dcStep ops s e) (false, a)).2.bitset j =
        if j.val ∈ l then ! ops.is_empty (a.sub j) else a.bitset j) := by
  intro l
  induction l with
  | nil => intro _ _ a; exact ⟨rfl, fun j => rfl, fun j => by simp⟩
  | cons i l ih =>
    intro hnd hlt a
    have hiN : i < N := hlt i (by simp)
    have hni : i ∉ l := (List.nodup_cons.mp hnd).1
    have hstep : dcStep ops s e (false, a) i =
        (false, { bitset := fun j => if j = ⟨i, hiN⟩ then ! ops.is_empty (a.sub ⟨i, hiN⟩)
                    else a.bitset j
                  sub := a.sub }) := by
      unfold dcStep
      rw [dif_pos hiN]
      rfl
    simp only [List.foldl_cons, hstep]
    obtain ⟨ih1, ih2, ih3⟩ := ih hnd.of_cons (fun x hx => hlt x (List.mem_cons_of_mem _ hx)) _
    refine ⟨ih1, fun j => ih2 j, fun j => ?_⟩
    rw [ih3 j]
    by_cases hji : j.val = i
    · have hj : j = ⟨i, hiN⟩ := Fin.ext hji
      subst hj
      have hjl : i ∉ l := hni
      simp only [hjl, ite_false, if_false, if_pos rfl, List.mem_cons]
      simp
    · have hj : ¬ j = ⟨i, hiN⟩ := fun hh => hji (by rw [hh])
      simp only [if_neg hj, List.mem_cons, hji, false_or]

/-- When every delegated call succeeds, `dealloc_contiguous`'s loop delegates
every spanned sub-range and returns `true`. -/
theorem foldl_dcStep_true {γ : Type} {N : Nat} (ops : BitAllocOps γ) (s e : Nat) :
    ∀ (l : List Nat), l.Nodup → (∀ i ∈ l, i < N) → ∀ (a : Cascade γ N),
      (∀ i, ∀ h : i < N, i ∈ l →
        (ops.dealloc_contiguous (a.sub ⟨i, h⟩) (childBegin s ops.CAP i)
          (childEnd e ops.CAP i - childBegin s ops.CAP i)).1 = true) →
      (l.foldl (dcStep ops s e) (true, a)).1 = true ∧
      (∀ j : Fin N, (l.foldl (dcStep ops s e) (true, a)).2.sub j =
        if j.val ∈ l then
          (ops.dealloc_contiguous (a.sub j) (childBegin s ops.CAP j.val)
            (childEnd e ops.CAP j.val - childBegin s ops.CAP j.val)).2
        else a.sub j) := by
  intro l
  induction l with
  | nil => intro _ _ a _; exact ⟨rfl, fun j => by simp⟩
  | cons i l ih =>
    intro hnd hlt a hok
    have hiN : i < N := hlt i (by simp)
    have hni : i ∉ l := (List.nodup_cons.mp hnd).1
    have hoki := hok i hiN (by simp)
    have hstep : dcStep ops s e (true, a) i =
        (true,
         { bitset := fun j => if j = ⟨i, hiN⟩ then
             ! ops.is_empty ((ops.dealloc_contiguous (a.sub ⟨i, hiN⟩) (childBegin s ops.CAP i)
               (childEnd e ops.CAP i - childBegin s ops.CAP i)).2) else a.bitset j
           sub := fun j => if j = ⟨i, hiN⟩ then
             (ops.dealloc_contiguous (a.sub ⟨i, hiN⟩) (childBegin s ops.CAP i)
               (childEnd e ops.CAP i - childBegin s ops.CAP i)).2 else a.sub j }) := by
      unfold dcStep
      rw [dif_pos hiN]
      show ((ops.dealloc_contiguous (a.sub ⟨i, hiN⟩) (childBegin s ops.CAP i)
          (childEnd e ops.CAP i - childBegin s ops.CAP i)).1, _) = _
      rw [hoki]
    simp only [List.foldl_cons, hstep]
    set a' : Cascade γ N :=
      { bitset := fun j => if j = ⟨i, hiN⟩ then
          ! ops.is_empty ((ops.dealloc_contiguous (a.sub ⟨i, hiN⟩) (childBegin s ops.CAP i)
            (childEnd e ops.CAP i - childBegin s ops.CAP i)).2) else a.bitset j
        sub := fun j => if j = ⟨i, hiN⟩ then
          (ops.dealloc_contiguous (a.sub ⟨i, hiN⟩) (childBegin s ops.CAP i)
            (childEnd e ops.CAP i - childBegin s ops.CAP i)).2 else a.sub j } with ha'
    have hsub' : ∀ x, ∀ hx : x < N, x ∈ l → a'.sub ⟨x, hx⟩ = a.sub ⟨x, hx⟩ := by
      intro x hx hxl
      rw [ha']
      have : ¬ (⟨x, hx⟩ : Fin N) = ⟨i, hiN⟩ := fun hh => hni (by
        have := congrArg Fin.val hh
        simp only at this
        rw [← this]; exact hxl)
      simp only [if_neg this]
    obtain ⟨ih1, ih2⟩ := ih hnd.of_cons (fun x hx => hlt x (List.mem_cons_of_mem _ hx)) a'
      (fun x hx hxl => by rw [hsub' x hx hxl]; exact hok x hx (List.mem_cons_of_mem _ hxl))
    refine ⟨ih1, fun j => ?_⟩
    rw [ih2 j]
    by_cases hji : j.val = i
    · have hj : j = ⟨i, hiN⟩ := Fin.ext hji
      subst hj
      have hjl : ¬ ((⟨i, hiN⟩ : Fin N).val ∈ l) := hni
      rw [if_neg hjl, if_pos (by simp : (⟨i, hiN⟩ : Fin N).val ∈ i :: l)]
      show a'.sub ⟨i, hiN⟩ = _
      rw [ha']
      simp
    · have hj : ¬ j = ⟨i, hiN⟩ := fun hh => hji (by rw [hh])
      have hsubj : a'.sub j = a.sub j := by rw [ha']; simp only [if_neg hj]
      rw [hsubj]
      simp only [List.mem_cons, hji, false_or]

theorem BitAlloc64.dealloc_contiguous_of_clear {a : BitAlloc64} {base size : Nat}
    (h : ∀ t, base ≤ t → t < base + size → a.getb t = false) :
    a.dealloc_contiguous base size = (true, a.insert base (base + size)) := by
  unfold dealloc_contiguous
  rw [if_pos (decide_eq_true_iff.mpr h)]

theorem BitAlloc64.dealloc_contiguous_of_set {a : BitAlloc64} {base size : Nat}
    (h : ¬ ∀ t, base ≤ t → t < base + size → a.getb t = false) :
    a.dealloc_contiguous base size = (false, a) := by
  unfold dealloc_contiguous
  rw [if_neg (fun hd => h (decide_eq_true_iff.mp hd))]

theorem BitAlloc512.test_eq_child (a : BitAlloc512) (k i : Nat) (hi : i < 8)
    (hdiv : k / 64 = i) (hk : k < 512) :
    BitAlloc512.test a k = (a.sub ⟨i, hi⟩).getb (k % 64) := by
  rw [BitAlloc512.test_eq a k hk]
  congr 1
  exact congrArg a.sub (Fin.ext hdiv)

theorem dcStep_true_eq {γ : Type} {N : Nat} (ops : BitAllocOps γ) (s e : Nat)
    (a : Cascade γ N) (i : Nat) (h : i < N) :
    dcStep ops s e (true, a) i =
      ((ops.dealloc_contiguous (a.sub ⟨i, h⟩) (childBegin s ops.CAP i)
          (childEnd e ops.CAP i - childBegin s ops.CAP i)).1,
       { bitset := fun j => if j = ⟨i, h⟩ then
           ! ops.is_empty ((ops.dealloc_contiguous (a.sub ⟨i, h⟩) (childBegin s ops.CAP i)
             (childEnd e ops.CAP i - childBegin s ops.CAP i)).2) else a.bitset j
         sub := fun j => if j = ⟨i, h⟩ then
           (ops.dealloc_contiguous (a.sub ⟨i, h⟩) (childBegin s ops.CAP i)
             (childEnd e ops.CAP i - childBegin s ops.CAP i)).2 else a.sub j }) := by
  unfold dcStep
  rw [dif_pos h, if_pos (show ((true, a) : Bool × Cascade γ N).1 = true from rfl)]

/-- Full characterisation of `dealloc_contiguous`'s loop over the consecutive
run of children `lo, lo+1, …, lo+n-1` (all in bounds), started with
`success = true`.  Because the loop visits each child once in ascending
order, the delegated call of child `i` acts on `a.sub i`, so: the final
`success` is `true` iff every visited child's delegated call succeeds; a
child outside the run keeps both its state and its summary bit; a child `j`
in the run receives its delegated call exactly when every earlier child of
the run succeeds (otherwise it keeps its state), and in either case its
summary bit ends up refreshed from the `is_empty` of its final state. -/
theorem foldl_dcStep_range {γ : Type} {N : Nat} (ops : BitAllocOps γ) (s e : Nat) :
    ∀ (n lo : Nat) (a : Cascade γ N), (∀ i, lo ≤ i → i < lo + n → i < N) →
      (((List.range' lo n).foldl (dcStep ops s e) (true, a)).1 = true ↔
        ∀ i : Fin N, lo ≤ i.val → i.val < lo + n → (childDealloc ops a s e i).1 = true) ∧
      (∀ j : Fin N, ¬ (lo ≤ j.val ∧ j.val < lo + n) →
        ((List.range' lo n).foldl (dcStep ops s e) (true, a)).2.sub j = a.sub j ∧
        ((List.range' lo n).foldl (dcStep ops s e) (true, a)).2.bitset j = a.bitset j) ∧
      (∀ j : Fin N, lo ≤ j.val → j.val < lo + n →
        ((∀ i : Fin N, lo ≤ i.val → i.val < j.val → (childDealloc ops a s e i).1 = true) →
          ((List.range' lo n).foldl (dcStep ops s e) (true, a)).2.sub j =
            (childDealloc ops a s e j).2) ∧
        (¬ (∀ i : Fin N, lo ≤ i.val → i.val < j.val →
            (childDealloc ops a s e i).1 = true) →
          ((List.range' lo n).foldl (dcStep ops s e) (true, a)).2.sub j = a.sub j) ∧
        ((List.range' lo n).foldl (dcStep ops s e) (true, a)).2.bitset j =
          ! ops.is_empty (((List.range' lo n).foldl (dcStep ops s e) (true, a)).2.sub j)) := by
  intro n
  induction n with
  | zero =>
    intro lo a hb
    refine ⟨?_, fun j hj => ⟨rfl, rfl⟩, fun j hj1 hj2 => absurd hj2 (by omega)⟩
    constructor
    · intro _ i hi1 hi2
      exact absurd hi2 (by omega)
    · intro _
      rfl
  | succ n ih =>
    intro lo a hb
    have hloN : lo < N := hb lo (Nat.le_refl lo) (by omega)
    have hcd : childDealloc ops a s e ⟨lo, hloN⟩ =
        ops.dealloc_contiguous (a.sub ⟨lo, hloN⟩) (childBegin s ops.CAP lo)
          (childEnd e ops.CAP lo - childBegin s ops.CAP lo) := rfl
    have hne_of_ge : ∀ i : Fin N, lo + 1 ≤ i.val → ¬ i = ⟨lo, hloN⟩ := by
      intro i hi hh
      have hv : i.val = lo := by rw [hh]
      omega
    have hstep := dcStep_true_eq ops s e a lo hloN
    rw [List.range'_succ]
    simp only [List.foldl_cons]
    rw [hstep]
    cases hr : (ops.dealloc_contiguous (a.sub ⟨lo, hloN⟩) (childBegin s ops.CAP lo)
        (childEnd e ops.CAP lo - childBegin s ops.CAP lo)).1 with
    | true =>
      set A1 : Cascade γ N :=
        { bitset := fun j => if j = ⟨lo, hloN⟩ then
            ! ops.is_empty ((ops.dealloc_contiguous (a.sub ⟨lo, hloN⟩) (childBegin s ops.CAP lo)
              (childEnd e ops.CAP lo - childBegin s ops.CAP lo)).2) else a.bitset j
          sub := fun j => if j = ⟨lo, hloN⟩ then
            (ops.dealloc_contiguous (a.sub ⟨lo, hloN⟩) (childBegin s ops.CAP lo)
              (childEnd e ops.CAP lo - childBegin s ops.CAP lo)).2 else a.sub j } with hA1
      have hA1sub_ne : ∀ i : Fin N, ¬ i = ⟨lo, hloN⟩ → A1.sub i = a.sub i := by
        intro i hi
        rw [hA1]
        dsimp only
        rw [if_neg hi]
      have hA1bit_ne : ∀ i : Fin N, ¬ i = ⟨lo, hloN⟩ → A1.bitset i = a.bitset i := by
        intro i hi
        rw [hA1]
        dsimp only
        rw [if_neg hi]
      have hA1sub_lo : A1.sub ⟨lo, hloN⟩ =
          (ops.dealloc_contiguous (a.sub ⟨lo, hloN⟩) (childBegin s ops.CAP lo)
            (childEnd e ops.CAP lo - childBegin s ops.CAP lo)).2 := by
        rw [hA1]
        dsimp only
        rw [if_pos rfl]
      have hA1bit_lo : A1.bitset ⟨lo, hloN⟩ = ! ops.is_empty (A1.sub ⟨lo, hloN⟩) := by
        rw [hA1]
        dsimp only
        rw [if_pos rfl, if_pos rfl]
      have hcd_ne : ∀ i : Fin N, lo + 1 ≤ i.val →
          childDealloc ops A1 s e i = childDealloc ops a s e i := by
        intro i hi
        unfold childDealloc
        rw [hA1sub_ne i (hne_of_ge i hi)]
      obtain ⟨ih1, ih2, ih3⟩ := ih (lo + 1) A1 (fun i h1 h2 => hb i (by omega) (by omega))
      refine ⟨?_, ?_, ?_⟩
      · rw [ih1]
        constructor
        · intro h i hi1 hi2
          rcases Nat.eq_or_lt_of_le hi1 with heq | hlt2
          · have hieq : i = ⟨lo, hloN⟩ := Fin.ext heq.symm
            rw [hieq, hcd]
            exact hr
          · have hx := h i (by omega) (by omega)
            rw [hcd_ne i (by omega)] at hx
            exact hx
        · intro h i hi1 hi2
          rw [hcd_ne i (by omega)]
          exact h i (by omega) (by omega)
      · intro j hj
        have hjne : ¬ j = ⟨lo, hloN⟩ := by
          intro hh
          have hv : j.val = lo := by rw [hh]
          omega
        obtain ⟨q1, q2⟩ := ih2 j (by omega)
        rw [q1, q2, hA1sub_ne j hjne, hA1bit_ne j hjne]
        exact ⟨rfl, rfl⟩
      · intro j hj1 hj2
        rcases Nat.eq_or_lt_of_le hj1 with heq | hlt2
        · have hjeq : j = ⟨lo, hloN⟩ := Fin.ext heq.symm
          obtain ⟨q1, q2⟩ := ih2 j (by omega)
          refine ⟨?_, ?_, ?_⟩
          · intro hpre
            rw [q1, hjeq, hA1sub_lo, hcd]
          · intro hn
            exact absurd (fun i hi1 hi2 => absurd hi1 (by omega)) hn
          · rw [q2, q1, hjeq, hA1bit_lo]
        · have hjge : lo + 1 ≤ j.val := hlt2
          obtain ⟨p1, p2, p3⟩ := ih3 j (by omega) (by omega)
          refine ⟨?_, ?_, p3⟩
          · intro hpre
            have hpre2 : ∀ i : Fin N, lo + 1 ≤ i.val → i.val < j.val →
                (childDealloc ops A1 s e i).1 = true := by
              intro i hi1 hi2
              rw [hcd_ne i hi1]
              exact hpre i (by omega) hi2
            rw [p1 hpre2, hcd_ne j hjge]
          · intro hnpre
            have hnpre2 : ¬ ∀ i : Fin N, lo + 1 ≤ i.val → i.val < j.val →
                (childDealloc ops A1 s e i).1 = true := by
              intro hsuf
              apply hnpre
              intro i hi1 hi2
              rcases Nat.eq_or_lt_of_le hi1 with heq2 | hlt3
              · have hieq : i = ⟨lo, hloN⟩ := Fin.ext heq2.symm
                rw [hieq, hcd]
                exact hr
              · have hx := hsuf i (by omega) hi2
                rw [hcd_ne i (by omega)] at hx
                exact hx
            rw [p2 hnpre2, hA1sub_ne j (hne_of_ge j hjge)]
    | false =>
      set A1 : Cascade γ N :=
        { bitset := fun j => if j = ⟨lo, hloN⟩ then
            ! ops.is_empty ((ops.dealloc_contiguous (a.sub ⟨lo, hloN⟩) (childBegin s ops.CAP lo)
              (childEnd e ops.CAP lo - childBegin s ops.CAP lo)).2) else a.bitset j
          sub := fun j => if j = ⟨lo, hloN⟩ then
            (ops.dealloc_contiguous (a.sub ⟨lo, hloN⟩) (childBegin s ops.CAP lo)
              (childEnd e ops.CAP lo - childBegin s ops.CAP lo)).2 else a.sub j } with hA1
      have hA1sub_ne : ∀ i : Fin N, ¬ i = ⟨lo, hloN⟩ → A1.sub i = a.sub i := by
        intro i hi
        rw [hA1]
        dsimp only
        rw [if_neg hi]
      have hA1bit_ne : ∀ i : Fin N, ¬ i = ⟨lo, hloN⟩ → A1.bitset i = a.bitset i := by
        intro i hi
        rw [hA1]
        dsimp only
        rw [if_neg hi]
      have hA1sub_lo : A1.sub ⟨lo, hloN⟩ =
          (ops.dealloc_contiguous (a.sub ⟨lo, hloN⟩) (childBegin s ops.CAP lo)
            (childEnd e ops.CAP lo - childBegin s ops.CAP lo)).2 := by
        rw [hA1]
        dsimp only
        rw [if_pos rfl]
      have hA1bit_lo : A1.bitset ⟨lo, hloN⟩ = ! ops.is_empty (A1.sub ⟨lo, hloN⟩) := by
        rw [hA1]
        dsimp only
        rw [if_pos rfl, if_pos rfl]
      have hbound2 : ∀ x ∈ List.range' (lo + 1) n, x < N := by
        intro x hx
        rw [List.mem_range'_1] at hx
        exact hb x (by omega) (by omega)
      obtain ⟨hf1, hf2, hf3⟩ := foldl_dcStep_false ops s e (List.range' (lo + 1) n)
        (nodup_range' (lo + 1) n) hbound2 A1
      refine ⟨?_, ?_, ?_⟩
      · constructor
        · intro hcontra
          rw [hf1] at hcontra
          exact absurd hcontra (by simp)
        · intro hall
          exfalso
          have hx := hall ⟨lo, hloN⟩ (Nat.le_refl lo) (show lo < lo + (n + 1) by omega)
          rw [hcd, hr] at hx
          exact absurd hx (by simp)
      · intro j hj
        have hjne : ¬ j = ⟨lo, hloN⟩ := by
          intro hh
          have hv : j.val = lo := by rw [hh]
          omega
        have hjnm : ¬ j.val ∈ List.range' (lo + 1) n := by
          rw [List.mem_range'_1]
          omega
        rw [hf2 j, hf3 j, if_neg hjnm, hA1sub_ne j hjne, hA1bit_ne j hjne]
        exact ⟨rfl, rfl⟩
      · intro j hj1 hj2
        rcases Nat.eq_or_lt_of_le hj1 with heq | hlt2
        · have hjeq : j = ⟨lo, hloN⟩ := Fin.ext heq.symm
          have hjnm : ¬ j.val ∈ List.range' (lo + 1) n := by
            rw [List.mem_range'_1]
            omega
          refine ⟨?_, ?_, ?_⟩
          · intro hpre
            rw [hf2 j, hjeq, hA1sub_lo, hcd]
          · intro hn
            exact absurd (fun i hi1 hi2 => absurd hi1 (by omega)) hn
          · rw [hf3 j, if_neg hjnm, hf2 j, hjeq, hA1bit_lo]
        · have hjge : lo + 1 ≤ j.val := hlt2
          have hjm : j.val ∈ List.range' (lo + 1) n := by
            rw [List.mem_range'_1]
            omega
          refine ⟨?_, ?_, ?_⟩
          · intro hpre
            exfalso
            have hx := hpre ⟨lo, hloN⟩ (Nat.le_refl lo) hlt2
            rw [hcd, hr] at hx
            exact absurd hx (by simp)
          · intro hnpre
            rw [hf2 j, hA1sub_ne j (hne_of_ge j hjge)]
          · rw [hf3 j, if_pos hjm, hf2 j]

/-- C7 (amended): `dealloc_contiguous(base, size)` returns `false` without
modifying any child when `base + size` exceeds the capacity.  Otherwise
(nonempty in-capacity range) it splits the range across the spanned
children (`childIdxs`) and processes them in ascending order; because the
source's `success = success && sub[i].dealloc_contiguous(..)`
short-circuits, a spanned child receives its delegated sub-range
(`childDealloc`) exactly when every earlier spanned child's delegated call
succeeded, and otherwise keeps its state; every spanned child's summary bit
is refreshed from the `is_empty()` of its final state, and unspanned
children keep both their state and their summary bit; the call returns
`true` iff every delegation was made and succeeded, i.e. iff every spanned
child's delegated call succeeds.  Finally, when every bit of the range was
used, every delegation succeeds, the whole range becomes free, and `true`
is returned. -/
theorem dealloc_contiguous_shortcircuit (a : BitAlloc512) (base size : Nat) :
    (512 < base + size → BitAlloc512.dealloc_contiguous a base size = (false, a)) ∧
    (1 ≤ size → base + size ≤ 512 →
      ((BitAlloc512.dealloc_contiguous a base size).1 = true ↔
        ∀ j : Fin 8, j.val ∈ childIdxs base (base + size) 64 →
          (childDealloc leafOps a base (base + size) j).1 = true) ∧
      (∀ j : Fin 8, ¬ j.val ∈ childIdxs base (base + size) 64 →
        (BitAlloc512.dealloc_contiguous a base size).2.sub j = a.sub j ∧
        (BitAlloc512.dealloc_contiguous a base size).2.bitset j = a.bitset j) ∧
      (∀ j : Fin 8, j.val ∈ childIdxs base (base + size) 64 →
        ((∀ i : Fin 8, i.val ∈ childIdxs base (base + size) 64 → i.val < j.val →
            (childDealloc leafOps a base (base + size) i).1 = true) →
          (BitAlloc512.dealloc_contiguous a base size).2.sub j =
            (childDealloc leafOps a base (base + size) j).2) ∧
        (¬ (∀ i : Fin 8, i.val ∈ childIdxs base (base + size) 64 → i.val < j.val →
            (childDealloc leafOps a base (base + size) i).1 = true) →
          (BitAlloc512.dealloc_contiguous a base size).2.sub j = a.sub j) ∧
        (BitAlloc512.dealloc_contiguous a base size).2.bitset j =
          ! BitAlloc64.is_empty ((BitAlloc512.dealloc_contiguous a base size).2.sub j)) ∧
      ((∀ k, base ≤ k → k < base + size → BitAlloc512.test a k = false) →
        (BitAlloc512.dealloc_contiguous a base size).1 = true ∧
        ∀ k, k < 512 →
          BitAlloc512.test (BitAlloc512.dealloc_contiguous a base size).2 k =
            (if base ≤ k ∧ k < base + size then true else BitAlloc512.test a k))) := by
  constructor
  · intro hcap
    show cdealloc_contiguous leafOps a base size = _
    unfold cdealloc_contiguous
    rw [if_pos (show base + size > leafOps.CAP * 8 from hcap)]
  · intro hsz hcap
    have hnle : ¬ (base + size > leafOps.CAP * 8) := by
      show ¬ (base + size > 64 * 8)
      omega
    have hfold : BitAlloc512.dealloc_contiguous a base size =
        (childIdxs base (base + size) 64).foldl
          (dcStep leafOps base (base + size)) (true, a) := by
      show cdealloc_contiguous leafOps a base size = _
      unfold cdealloc_contiguous
      rw [if_neg hnle]
      rfl
    have hnd := nodup_childIdxs base (base + size) 64
    have hltN : ∀ i ∈ childIdxs base (base + size) 64, i < 8 :=
      childIdxs_lt (by omega) (by omega) (by omega)
    have hfold2 : BitAlloc512.dealloc_contiguous a base size =
        (List.range' (base / 64) ((base + size - 1) / 64 + 1 - base / 64)).foldl
          (dcStep leafOps base (base + size)) (true, a) := hfold
    obtain ⟨g1, g2, g3⟩ := foldl_dcStep_range leafOps base (base + size)
      ((base + size - 1) / 64 + 1 - base / 64) (base / 64) a (fun i h1 h2 => by omega)
    refine ⟨?_, ?_, ?_, ?_⟩
    · rw [hfold2, g1]
      constructor
      · intro h j hjm
        rw [mem_childIdxs] at hjm
        exact h j hjm.1 (by omega)
      · intro h i hi1 hi2
        exact h i (by rw [mem_childIdxs]; omega)
    · intro j hjm
      rw [mem_childIdxs] at hjm
      rw [hfold2]
      exact g2 j (by omega)
    · intro j hjm
      rw [mem_childIdxs] at hjm
      obtain ⟨p1, p2, p3⟩ := g3 j hjm.1 (by omega)
      rw [hfold2]
      refine ⟨?_, ?_, p3⟩
      · intro hpre
        apply p1
        intro i hi1 hi2
        exact hpre i (by rw [mem_childIdxs]; omega) hi2
      · intro hnpre
        apply p2
        intro hall
        apply hnpre
        intro i him hi2
        rw [mem_childIdxs] at him
        exact hall i him.1 hi2
    · intro hused
      have hok : ∀ i, ∀ h : i < 8, i ∈ childIdxs base (base + size) 64 →
          (leafOps.dealloc_contiguous (a.sub ⟨i, h⟩) (childBegin base leafOps.CAP i)
            (childEnd (base + size) leafOps.CAP i -
              childBegin base leafOps.CAP i)).1 = true := by
        intro i h hmem
        have hbou := childBounds_64 (show base ≤ base + size by omega) hcap hmem
        have hcond : ∀ t, childBegin base 64 i ≤ t →
            t < childBegin base 64 i +
              (childEnd (base + size) 64 i - childBegin base 64 i) →
            (a.sub ⟨i, h⟩).getb t = false := by
          intro t ht1 ht2
          have ht64 : t < 64 := by omega
          have hmemk : (64 * i + t) / 64 ∈ childIdxs base (base + size) 64 := by
            rw [show (64 * i + t) / 64 = i by omega]
            exact hmem
          have hiff := childRange_in_64 (show base ≤ base + size by omega) hcap
            (show 64 * i + t < 512 by omega) hmemk
          rw [show (64 * i + t) / 64 = i by omega,
            show (64 * i + t) % 64 = t by omega] at hiff
          have hglob := hiff.mp ⟨ht1, by omega⟩
          have hts := hused (64 * i + t) hglob.1 hglob.2
          rw [BitAlloc512.test_decompose a i t h ht64] at hts
          exact hts
        show (BitAlloc64.dealloc_contiguous (a.sub ⟨i, h⟩) (childBegin base 64 i)
          (childEnd (base + size) 64 i - childBegin base 64 i)).1 = true
        rw [BitAlloc64.dealloc_contiguous_of_clear hcond]
      obtain ⟨hr1, hr2⟩ := foldl_dcStep_true leafOps base (base + size)
        (childIdxs base (base + size) 64) hnd hltN a hok
      refine ⟨by rw [hfold]; exact hr1, fun k hk => ?_⟩
      rw [hfold, BitAlloc512.test_eq _ k hk, BitAlloc512.test_eq a k hk]
      have hj8 : k / 64 < 8 := by omega
      have hsubk := hr2 ⟨k / 64, hj8⟩
      rw [show ((⟨k / 64, hj8⟩ : Fin 8) : Nat) = k / 64 from rfl] at hsubk
      by_cases hmem : k / 64 ∈ childIdxs base (base + size) 64
      · rw [if_pos hmem] at hsubk
        have hbou := childBounds_64 (show base ≤ base + size by omega) hcap hmem
        have hcond : ∀ t, childBegin base 64 (k / 64) ≤ t →
            t < childBegin base 64 (k / 64) +
              (childEnd (base + size) 64 (k / 64) - childBegin base 64 (k / 64)) →
            (a.sub ⟨k / 64, hj8⟩).getb t = false := by
          intro t ht1 ht2
          have ht64 : t < 64 := by omega
          have hmemk : (64 * (k / 64) + t) / 64 ∈ childIdxs base (base + size) 64 := by
            rw [show (64 * (k / 64) + t) / 64 = k / 64 by omega]
            exact hmem
          have hiff := childRange_in_64 (show base ≤ base + size by omega) hcap
            (show 64 * (k / 64) + t < 512 by omega) hmemk
          rw [show (64 * (k / 64) + t) / 64 = k / 64 by omega,
            show (64 * (k / 64) + t) % 64 = t by omega] at hiff
          have hglob := hiff.mp ⟨ht1, by omega⟩
          have hts := hused (64 * (k / 64) + t) hglob.1 hglob.2
          rw [BitAlloc512.test_decompose a (k / 64) t hj8 ht64] at hts
          exact hts
        have hleaf : leafOps.dealloc_contiguous (a.sub ⟨k / 64, hj8⟩)
            (childBegin base leafOps.CAP (k / 64))
            (childEnd (base + size) leafOps.CAP (k / 64) -
              childBegin base leafOps.CAP (k / 64)) =
            (true, (a.sub ⟨k / 64, hj8⟩).insert (childBegin base 64 (k / 64))
              (childBegin base 64 (k / 64) +
                (childEnd (base + size) 64 (k / 64) - childBegin base 64 (k / 64)))) := by
          show BitAlloc64.dealloc_contiguous _ (childBegin base 64 (k / 64))
            (childEnd (base + size) 64 (k / 64) - childBegin base 64 (k / 64)) = _
          rw [BitAlloc64.dealloc_contiguous_of_clear hcond]
        rw [hleaf] at hsubk
        rw [hsubk, BitAlloc64.getb_insert _ _ _ _ (show k % 64 < 64 by omega)]
        have hiff := childRange_in_64 (show base ≤ base + size by omega) hcap hk hmem
        by_cases hglob : base ≤ k ∧ k < base + size
        · rw [if_pos (show childBegin base 64 (k / 64) ≤ k % 64 ∧
              k % 64 < childBegin base 64 (k / 64) +
                (childEnd (base + size) 64 (k / 64) - childBegin base 64 (k / 64)) by
              have := hiff.mpr hglob
              omega), if_pos hglob]
        · rw [if_neg (fun hc => hglob (hiff.mp (by omega))), if_neg hglob]
      · rw [if_neg hmem] at hsubk
        rw [hsubk, if_neg (childRange_out_64 (by omega) (by omega) hk hmem)]

/-- C7 counterexample: on a `BitAlloc512` whose only free bit is 32, the call
`dealloc_contiguous(32, 64)` spans children 0 and 1.  The delegated call on
child 0 fails (bit 32 of its range is free), and because `&&` short-circuits,
child 1 is never delegated to: bit 64 of the range stays used.  The
spec-described behaviour (`cdealloc_contiguous_spec`: delegate each
sub-range, AND the results) would instead free bit 64.  So the claim's
"delegates each sub-range to the corresponding child" is false of the code. -/
theorem dealloc_contiguous_shortcircuit_counterexample :
    (BitAlloc512.dealloc_contiguous fixtureDc 32 64).1 = false ∧
    BitAlloc512.test (BitAlloc512.dealloc_contiguous fixtureDc 32 64).2 64 = false ∧
    (cdealloc_contiguous_spec leafOps fixtureDc 32 64).1 = false ∧
    ctest leafOps (cdealloc_contiguous_spec leafOps fixtureDc 32 64).2 64 = true := by
  decide

theorem BitAlloc512.test_DEFAULT (k : Nat) :
    BitAlloc512.test BitAlloc512.DEFAULT k = false := by
  unfold BitAlloc512.test ctest
  by_cases h : k / leafOps.CAP < 8
  · rw [dif_pos h]
    show BitAlloc64.getb BitAlloc64.DEFAULT (k % 64) = false
    unfold BitAlloc64.getb
    by_cases hm : k % 64 < 64
    · rw [dif_pos hm]; rfl
    · rw [dif_neg hm]
  · rw [dif_neg h]

/-- Witness for C7 (amended): the out-of-capacity call
`dealloc_contiguous(500, 20)` returns `false` with the state unchanged; on
the all-used default state `dealloc_contiguous(32, 64)` succeeds and frees
bit 95; and on the state whose only free bit is 32, `dealloc_contiguous(32,
64)` returns `false`, child 0 (no earlier spanned child) receives its
delegated call, child 1 is not delegated to (child 0's delegation failed)
and keeps its state while its summary bit is still refreshed, and the
unspanned child 2 keeps both its state and its summary bit. -/
theorem dealloc_contiguous_shortcircuit_witness :
    BitAlloc512.dealloc_contiguous BitAlloc512.DEFAULT 500 20 =
      (false, BitAlloc512.DEFAULT) ∧
    ((BitAlloc512.dealloc_contiguous BitAlloc512.DEFAULT 32 64).1 = true ∧
     BitAlloc512.test (BitAlloc512.dealloc_contiguous BitAlloc512.DEFAULT 32 64).2 95 = true) ∧
    ((BitAlloc512.dealloc_contiguous fixtureDc 32 64).1 = false ∧
     (BitAlloc512.dealloc_contiguous fixtureDc 32 64).2.sub 0 =
       (childDealloc leafOps fixtureDc 32 (32 + 64) 0).2 ∧
     (BitAlloc512.dealloc_contiguous fixtureDc 32 64).2.sub 1 = fixtureDc.sub 1 ∧
     (BitAlloc512.dealloc_contiguous fixtureDc 32 64).2.bitset 1 =
       ! BitAlloc64.is_empty ((BitAlloc512.dealloc_contiguous fixtureDc 32 64).2.sub 1) ∧
     (BitAlloc512.dealloc_contiguous fixtureDc 32 64).2.sub 2 = fixtureDc.sub 2 ∧
     (BitAlloc512.dealloc_contiguous fixtureDc 32 64).2.bitset 2 = fixtureDc.bitset 2) := by
  have hguard := (dealloc_contiguous_shortcircuit BitAlloc512.DEFAULT 500 20).1 (by decide)
  have hmain := dealloc_contiguous_shortcircuit BitAlloc512.DEFAULT 32 64
  have hok := (hmain.2 (by decide) (by decide)).2.2.2
    (fun k hk1 hk2 => BitAlloc512.test_DEFAULT k)
  obtain ⟨fiff, funsp, fchar, _⟩ :=
    (dealloc_contiguous_shortcircuit fixtureDc 32 64).2 (by decide) (by decide)
  obtain ⟨d1, _, _⟩ := fchar 0 (by decide)
  have hsub0 := d1 (by decide)
  obtain ⟨_, nd2, fp3⟩ := fchar 1 (by decide)
  have hsub1 := nd2 (by decide)
  have hun := funsp 2 (by decide)
  have hfalse : (BitAlloc512.dealloc_contiguous fixtureDc 32 64).1 = false := by
    cases hres : (BitAlloc512.dealloc_contiguous fixtureDc 32 64).1 with
    | false => rfl
    | true => exact absurd (fiff.mp hres 0 (by decide)) (by decide)
  exact ⟨hguard, ⟨hok.1, by rw [hok.2 95 (by decide)]; decide⟩,
    hfalse, hsub0, hsub1, fp3, hun.1, hun.2⟩

/-! ## Normal completion of `insert`/`remove` (C10) -/

theorem BitAlloc512.for_range_ok_of_nonempty {s e : Nat} (hlt : s < e) (he : e ≤ 512) :
    BitAlloc512.for_range_ok s e := by
  refine ⟨by omega, he, by omega, ?_⟩
  intro i hmem
  rw [mem_childIdxs] at hmem
  unfold BitAlloc64.set_bits_ok childBegin childEnd
  split_ifs <;> omega

theorem SegmentBitAllocCascade.seg_for_range_ok_of_nonempty {SIZE s e : Nat} (hlt : s < e)
    (he : e ≤ 512 * SIZE) : SegmentBitAllocCascade.for_range_ok SIZE s e := by
  refine ⟨by omega, he, by omega, ?_⟩
  intro i hmem
  rw [mem_childIdxs] at hmem
  apply BitAlloc512.for_range_ok_of_nonempty
  · unfold childBegin childEnd
    split_ifs <;> omega
  · unfold childEnd
    split_ifs <;> omega

/-- C10 counterexample: the empty range `5..5` satisfies the claimed domain
(`start ≤ end`, `1 ≤ end ≤ CAP`), yet the operation does not complete
normally: the single spanned child receives the empty sub-range `5..5`, and
`bit_field`'s `set_bits`/`get_bits` assert `start < end`. -/
theorem for_range_empty_range_counterexample :
    (5 ≤ 5 ∧ 1 ≤ 5 ∧ 5 ≤ 512) ∧ ¬ BitAlloc512.for_range_ok 5 5 := by
  constructor
  · exact ⟨le_refl _, by omega, by omega⟩
  · decide

/-- C10 (amended): for both cascade types, `insert(range)` and
`remove(range)` complete normally for every nonempty range
`start < end ≤ CAP`.  The empty range `0..0` — although it satisfies the
asserted precondition `start ≤ end ≤ CAP` — computes the loop bound
`end - 1` on an unsigned zero, underflows, and does not complete normally.
Other empty ranges `s..s` with `1 ≤ s ≤ CAP` complete exactly when
`s % 64 = 0` (otherwise the spanned leaf receives an empty `set_bits`
sub-range, whose `assert!(start < end)` fails). -/
theorem for_range_completion (SIZE : Nat) :
    (∀ s e, s < e → e ≤ 512 → BitAlloc512.for_range_ok s e) ∧
    (∀ s e, s < e → e ≤ 512 * SIZE → SegmentBitAllocCascade.for_range_ok SIZE s e) ∧
    ¬ BitAlloc512.for_range_ok 0 0 ∧
    ¬ SegmentBitAllocCascade.for_range_ok SIZE 0 0 ∧
    (∀ s, 1 ≤ s → s ≤ 512 → s % 64 = 0 → BitAlloc512.for_range_ok s s) ∧
    (∀ s, 1 ≤ s → s ≤ 512 → ¬ s % 64 = 0 → ¬ BitAlloc512.for_range_ok s s) := by
  refine ⟨fun s e h1 h2 => BitAlloc512.for_range_ok_of_nonempty h1 h2,
    fun s e h1 h2 => SegmentBitAllocCascade.seg_for_range_ok_of_nonempty h1 h2,
    fun h => by have := h.2.2.1; omega,
    fun h => by have := h.2.2.1; omega, ?_, ?_⟩
  · intro s h1 h2 hmod
    refine ⟨le_refl _, h2, h1, ?_⟩
    intro i hmem
    rw [mem_childIdxs] at hmem
    unfold BitAlloc64.set_bits_ok childBegin childEnd
    split_ifs <;> omega
  · intro s h1 h2 hmod hok
    have hmem : s / 64 ∈ childIdxs s s 64 := by
      rw [mem_childIdxs]
      omega
    have hbad := hok.2.2.2 (s / 64) hmem
    unfold BitAlloc64.set_bits_ok childBegin childEnd at hbad
    split_ifs at hbad <;> omega

/-- Witness for C10 (amended) at the concrete nonempty range `3..10`. -/
theorem for_range_completion_witness :
    3 < 10 ∧ BitAlloc512.for_range_ok 3 10 :=
  ⟨by decide, (for_range_completion 1).1 3 10 (by decide) (by decide)⟩

/-! ## Segment activation (C2) -/

/-- C2: `increase_segment_at(segment_base)` with a granularity-aligned base
whose segment index is in range: if the segment is already active it returns
`false` and changes no allocator state; if inactive it marks the segment
active in `allocated_bitset`, inserts the segment's full range
`[idx*g, idx*g + g)` into the cascade as newly free (a call that completes
normally, given the range fits the cascade capacity), and returns `true`.
Two consecutive calls on the same inactive segment return `true` then
`false`, and the state after the second call equals the state after the
first. -/
theorem increase_segment_at_spec {SIZE : Nat} (a : SegmentBitmapPageAllocator SIZE)
    (segment_base : Nat) (hg : 0 < a.segment_granularity)
    (hal : segment_base % a.segment_granularity = 0)
    (hidx : segment_base / a.segment_granularity < SIZE)
    (hcap : (segment_base / a.segment_granularity + 1) * a.segment_granularity ≤
      512 * SIZE) :
    (a.allocated_bitset ⟨segment_base / a.segment_granularity, hidx⟩ = true →
      SegmentBitmapPageAllocator.increase_segment_at a segment_base = (false, a)) ∧
    (a.allocated_bitset ⟨segment_base / a.segment_granularity, hidx⟩ = false →
      SegmentBitmapPageAllocator.increase_segment_at a segment_base =
        (true,
         { a with
           allocated_bitset := fun j =>
             if j = ⟨segment_base / a.segment_granularity, hidx⟩ then true
             else a.allocated_bitset j
           inner := SegmentBitAllocCascade.insert a.inner
             (segment_base / a.segment_granularity * a.segment_granularity)
             (segment_base / a.segment_granularity * a.segment_granularity +
               a.segment_granularity) }) ∧
      SegmentBitAllocCascade.for_range_ok SIZE
        (segment_base / a.segment_granularity * a.segment_granularity)
        (segment_base / a.segment_granularity * a.segment_granularity +
          a.segment_granularity) ∧
      (SegmentBitmapPageAllocator.increase_segment_at a segment_base).1 = true ∧
      (SegmentBitmapPageAllocator.increase_segment_at
        (SegmentBitmapPageAllocator.increase_segment_at a segment_base).2
        segment_base).1 = false ∧
      (SegmentBitmapPageAllocator.increase_segment_at
        (SegmentBitmapPageAllocator.increase_segment_at a segment_base).2
        segment_base).2 =
        (SegmentBitmapPageAllocator.increase_segment_at a segment_base).2) := by
  have hact : ∀ b : SegmentBitmapPageAllocator SIZE,
      b.segment_granularity = a.segment_granularity →
      ∀ hidx' : segment_base / b.segment_granularity < SIZE,
      b.allocated_bitset ⟨segment_base / b.segment_granularity, hidx'⟩ = true →
      SegmentBitmapPageAllocator.increase_segment_at b segment_base = (false, b) := by
    intro b hbg hidx' hbit
    unfold SegmentBitmapPageAllocator.increase_segment_at
    rw [dif_pos hidx']
    simp only [hbit, if_true, ite_true]
  constructor
  · intro hbit
    exact hact a rfl hidx hbit
  · intro hbit
    have hres : SegmentBitmapPageAllocator.increase_segment_at a segment_base =
        (true,
         { a with
           allocated_bitset := fun j =>
             if j = ⟨segment_base / a.segment_granularity, hidx⟩ then true
             else a.allocated_bitset j
           inner := SegmentBitAllocCascade.insert a.inner
             (segment_base / a.segment_granularity * a.segment_granularity)
             (segment_base / a.segment_granularity * a.segment_granularity +
               a.segment_granularity) }) := by
      unfold SegmentBitmapPageAllocator.increase_segment_at
      rw [dif_pos hidx]
      simp only [hbit, Bool.false_eq_true, ite_false, if_false]
    have hok : SegmentBitAllocCascade.for_range_ok SIZE
        (segment_base / a.segment_granularity * a.segment_granularity)
        (segment_base / a.segment_granularity * a.segment_granularity +
          a.segment_granularity) := by
      apply SegmentBitAllocCascade.seg_for_range_ok_of_nonempty
      · omega
      · have hm : (segment_base / a.segment_granularity + 1) * a.segment_granularity =
            segment_base / a.segment_granularity * a.segment_granularity +
              a.segment_granularity := by ring
        omega
    have hsecond : SegmentBitmapPageAllocator.increase_segment_at
        (SegmentBitmapPageAllocator.increase_segment_at a segment_base).2 segment_base =
        (false, (SegmentBitmapPageAllocator.increase_segment_at a segment_base).2) := by
      rw [hres]
      apply hact
      · rfl
      · show (if (⟨segment_base / a.segment_granularity, hidx⟩ : Fin SIZE) =
            ⟨segment_base / a.segment_granularity, hidx⟩ then true
          else a.allocated_bitset ⟨segment_base / a.segment_granularity, hidx⟩) = true
        rw [if_pos rfl]
    exact ⟨hres, hok, by rw [hres], by rw [hsecond], by rw [hsecond]⟩

/-- Witness for C2 on a fresh allocator (granularity 512, one segment, no
segment active): activating segment 0 twice returns `true` then `false`, and
the second call leaves the state of the first unchanged. -/
theorem increase_segment_at_spec_witness :
    (SegmentBitmapPageAllocator.increase_segment_at fixtureFresh 0).1 = true ∧
    (SegmentBitmapPageAllocator.increase_segment_at
      (SegmentBitmapPageAllocator.increase_segment_at fixtureFresh 0).2 0).1 = false ∧
    (SegmentBitmapPageAllocator.increase_segment_at
      (SegmentBitmapPageAllocator.increase_segment_at fixtureFresh 0).2 0).2 =
      (SegmentBitmapPageAllocator.increase_segment_at fixtureFresh 0).2 := by
  have h := (increase_segment_at_spec fixtureFresh 0 (by decide) (by decide) (by decide)
    (by decide)).2 (by decide)
  exact ⟨h.2.2.1, h.2.2.2.1, h.2.2.2.2⟩

/-! ## `dealloc_pages` and `used_pages` (C8) -/

theorem SegmentBitAllocCascade.seg_dealloc_fst {SIZE : Nat} (a : SegmentBitAllocCascade SIZE)
    (key : Nat) (hk : key < 512 * SIZE) :
    (SegmentBitAllocCascade.dealloc a key).1 = ! SegmentBitAllocCascade.test a key := by
  have h1 : key / 512 < SIZE := by omega
  have h2 : key % 512 / 64 < 8 := by omega
  show (cdealloc ba512Ops a key).1 = ! ctest ba512Ops a key
  unfold cdealloc ctest
  rw [dif_pos (show key / ba512Ops.CAP < SIZE from h1),
    dif_pos (show key / ba512Ops.CAP < SIZE from h1)]
  show (cdealloc leafOps (a.sub ⟨key / 512, h1⟩) (key % 512)).1 =
    ! ctest leafOps (a.sub ⟨key / 512, h1⟩) (key % 512)
  unfold cdealloc ctest
  rw [dif_pos (show key % 512 / leafOps.CAP < 8 from h2),
    dif_pos (show key % 512 / leafOps.CAP < 8 from h2)]
  rfl

/-- C8: `dealloc_pages(pos, num_pages)` with `pos` page-aligned decrements
`used_pages` by `num_pages` iff the delegated `dealloc` (one page) or
`dealloc_contiguous` (several pages) reports that it actually freed
something; in particular, since the leaf `dealloc` of an already-free bit
returns `false`, a double-free leaves `used_pages` unchanged. -/
theorem dealloc_pages_used_pages {SIZE : Nat} (a : SegmentBitmapPageAllocator SIZE)
    (pos num_pages : Nat) (hal : pos % a.page_size = 0) :
    (num_pages = 1 → (pos - a.base) / a.page_size < 512 * SIZE →
      (SegmentBitmapPageAllocator.dealloc_pages a pos 1).used_pages =
        (if SegmentBitAllocCascade.test a.inner ((pos - a.base) / a.page_size) then
          a.used_pages
        else a.used_pages - 1)) ∧
    (1 < num_pages →
      (SegmentBitmapPageAllocator.dealloc_pages a pos num_pages).used_pages =
        (if (SegmentBitAllocCascade.dealloc_contiguous a.inner
            ((pos - a.base) / a.page_size) num_pages).1 then
          a.used_pages - num_pages
        else a.used_pages)) ∧
    (num_pages = 0 →
      (SegmentBitmapPageAllocator.dealloc_pages a pos 0).used_pages = a.used_pages) := by
  refine ⟨?_, ?_, ?_⟩
  · intro _ hkey
    unfold SegmentBitmapPageAllocator.dealloc_pages
    simp only [if_pos rfl, ite_true]
    rw [SegmentBitAllocCascade.seg_dealloc_fst a.inner ((pos - a.base) / a.page_size) hkey]
    cases htest : SegmentBitAllocCascade.test a.inner ((pos - a.base) / a.page_size)
    · simp
    · simp
  · intro hn
    have h1 : ¬ num_pages = 1 := by omega
    simp only [SegmentBitmapPageAllocator.dealloc_pages, h1, ite_false, if_false, hn,
      if_true, ite_true]
  · intro _
    simp only [SegmentBitmapPageAllocator.dealloc_pages]
    norm_num

/-- Witness for C8 on a concrete allocator whose only free page is page 0
(`used_pages = 2`): deallocating the already-free page 0 is a double-free and
leaves `used_pages` at 2; deallocating the used page 1 decrements it to 1. -/
theorem dealloc_pages_used_pages_witness :
    (SegmentBitmapPageAllocator.dealloc_pages fixtureDealloc 0 1).used_pages = 2 ∧
    (SegmentBitmapPageAllocator.dealloc_pages fixtureDealloc 1 1).used_pages = 1 := by
  have h1 := (dealloc_pages_used_pages fixtureDealloc 0 1 (by decide)).1 rfl (by decide)
  have h2 := (dealloc_pages_used_pages fixtureDealloc 1 1 (by decide)).1 rfl (by decide)
  constructor
  · rw [h1]
    decide
  · rw [h2]
    decide

/-! ## `alloc_pages` ignores the alignment for single pages (C9) -/

/-- C9: for `alloc_pages` with `num_pages == 1`, the `align_pow2` argument is
only validated, never honoured.  On the concrete allocator `fixtureAlign`
(page size 2, lowest free page index 1), `alloc_pages(1, 4)` passes all
validation (`4 ≤ 1 GiB`, `4` is a multiple of the page size, `4 / 2 = 2` is
a power of two) with `align_pow2 = 4` strictly greater than the page size,
succeeds, and returns address 2 — a multiple of the page size but not of
`align_pow2` — because the single-page path delegates to the cascade's plain
`alloc()`, which returns the lowest free bit regardless of alignment. -/
theorem alloc_pages_single_ignores_align :
    fixtureAlign.page_size = 2 ∧ 2 < 4 ∧
    (SegmentBitmapPageAllocator.alloc_pages fixtureAlign 1 4).1 = AllocResult.ok 2 ∧
    2 % fixtureAlign.page_size = 0 ∧ ¬ (2 % 4 = 0) := by
  decide

/-! ## `try_decrease_segment` and the inverted `segment_is_free` (C1) -/

/-- C1 (the code evaluated at the failing input): on `fixtureTryDecrease`,
segment 0 is active with all 512 of its pages live-allocated (no free bits),
and segment 1 is active and entirely free (512 free bits).  The claim (and
the spec's intent) is that exactly the entirely-free segment 1 is
deactivated and segment 0 is kept.  The code's `segment_is_free(idx)`
returns `sub_seg[idx].is_empty()`, which is true when the segment has **no
free** bits — i.e. when every page is live — so `try_decrease_segment`
deactivates the fully-live segment 0 (clearing its active bit and removing
its range) and leaves the entirely-free segment 1 active. -/
theorem try_decrease_segment_inverted :
    (∀ k : Fin 512, SegmentBitAllocCascade.test fixtureTryDecrease.inner k.val = false) ∧
    (∀ k : Fin 512,
      SegmentBitAllocCascade.test fixtureTryDecrease.inner (512 + k.val) = true) ∧
    SegmentBitAllocCascade.segment_is_free fixtureTryDecrease.inner 0 = true ∧
    SegmentBitAllocCascade.segment_is_free fixtureTryDecrease.inner 1 = false ∧
    (SegmentBitmapPageAllocator.try_decrease_segment
      fixtureTryDecrease).allocated_bitset 0 = false ∧
    (SegmentBitmapPageAllocator.try_decrease_segment
      fixtureTryDecrease).allocated_bitset 1 = true := by
  decide

end EquationDefs
